import Mathlib

/-!
Verification of the jsonnet dependency-graph tool (`src/main.rs`).

The development shallowly embeds the program's core:
* `FPath` models `std::path::Path`/`PathBuf` (an absolute flag plus components);
* `Resolver.resolve` models `Resolver::resolve`;
* the `Expr` family models the external parser's syntax tree (`jrsonnet_parser`),
  keeping exactly the node shapes that `scan_ast` discriminates on; payloads the
  scanner ignores (operators, names, locations, visibility) are elided;
* `scan_ast`/`scan_obj`/... and `analyze_file` model the import extractor;
* `resolve_deps_loop` models the work-list closure `resolve_deps`, with explicit
  fuel for the `while let` loop and with the `&mut` cache returned alongside the
  result (also on error, as in Rust, where the cache outlives the call).

External collaborators (the file system and the parser) are modelled by a
`Storage` record: `tryExists` models `Path::try_exists` (`none` = the check
itself failed) and `readFile` models `read_to_string` followed by `parse`
(`none` = read error, `some none` = parse error, `some (some ast)` = success).
-/

/-- Model of a file-system path: `absolute` mirrors `Path::is_absolute`,
`comps` the sequence of components. -/
structure FPath where
  absolute : Bool
  comps : List String
deriving DecidableEq, Repr

/-- `Path::join`: an absolute argument replaces the receiver, otherwise the
components are appended. -/
def FPath.join (a b : FPath) : FPath :=
  if b.absolute then b else ⟨a.absolute, a.comps ++ b.comps⟩

/-- `Path::parent`: `none` for a root or empty path, otherwise drop the final
component. -/
def FPath.parent (p : FPath) : Option FPath :=
  match p.comps with
  | [] => none
  | _ :: _ => some ⟨p.absolute, p.comps.dropLast⟩

/-- Error values of the program.  The Rust code formats `String` errors; each
constructor records the `format!` site that produced it, with the path the
message mentions.  `panicked` models the `unwrap()` panic in `analyze_file`
(not a returned error in Rust; kept separate so that its absence can be
proved). -/
inductive Err where
  /-- "Could not check path {}" in `Resolver::resolve` (raw import path). -/
  | checkFailed (path : FPath)
  /-- "Failed to read {}" in `analyze_file`. -/
  | readFailed (path : FPath)
  /-- "Failed to parse {}" in `analyze_file`. -/
  | parseFailed (path : FPath)
  /-- The `filepath.parent().unwrap()` panic in `analyze_file`. -/
  | panicked
deriving DecidableEq, Repr

mutual
/-- The parsed syntax tree (`jrsonnet_parser::Expr`, with `LocExpr` location
wrappers elided).  Only the shape that `scan_ast` matches on is kept; payloads
the scanner never touches (operator kinds, identifier names, `tailstrict`
markers, visibility) are dropped, and every node kind that falls into the
Rust catch-all `_ => ()` arm is collapsed into `Literal`. -/
inductive Expr where
  | Import (path : FPath)
  | ImportStr (path : FPath)
  | Arr (exprs : List Expr)
  | ArrComp (e : Expr) (compspecs : List CompSpec)
  | Obj (obj : ObjBody)
  | ObjExtend (e : Expr) (obj : ObjBody)
  | Parened (e : Expr)
  | UnaryOp (e : Expr)
  | BinaryOp (a : Expr) (b : Expr)
  | AssertExpr (stmt : AssertStmt) (e : Expr)
  | LocalExpr (binds : List BindSpec) (e : Expr)
  | ErrorStmt (e : Expr)
  | Apply (e : Expr) (args : List Arg)
  | Index (a : Expr) (b : Expr)
  | Function (params : List Param) (e : Expr)
  | IfElse (cond : Expr) (cond_then : Expr) (cond_else : Option Expr)
  | Slice (e : Expr) (start_ : Option Expr) (end_ : Option Expr) (step_ : Option Expr)
  | Literal

/-- `CompSpec`: comprehension generators and filters. -/
inductive CompSpec where
  | IfSpec (e : Expr)
  | ForSpec (e : Expr)

/-- `AssertStmt(expr, Option<expr>)`. -/
inductive AssertStmt where
  | mk (cond : Expr) (message : Option Expr)

/-- `BindSpec { params: Option<ParamsDesc>, value, .. }`. -/
inductive BindSpec where
  | mk (params : Option (List Param)) (value : Expr)

/-- `Param(_, Option<Expr>)`: a parameter's optional default expression. -/
inductive Param where
  | mk (default : Option Expr)

/-- `Arg(_, Expr)`: one application argument. -/
inductive Arg where
  | mk (e : Expr)

/-- `ObjBody`. -/
inductive ObjBody where
  | MemberList (members : List Member)
  | ObjComp (pre_locals : List BindSpec) (key : Expr) (value : Expr)
      (post_locals : List BindSpec) (compspecs : List CompSpec)

/-- `Member`. -/
inductive Member where
  | Field (name : FieldName) (params : Option (List Param)) (value : Expr)
  | BindStmt (b : BindSpec)
  | AssertStmt (s : AssertStmt)

/-- `FieldName`. -/
inductive FieldName where
  | Fixed
  | Dyn (e : Expr)
end

/-- The external collaborators: storage and parser. -/
structure Storage where
  /-- `Path::try_exists`: `none` models an `Err` from the check itself. -/
  tryExists : FPath → Option Bool
  /-- `read_to_string` composed with the external `parse`:
  `none` = read error, `some none` = parse error, `some (some ast)` = the
  file's parsed tree. -/
  readFile : FPath → Option (Option Expr)

/-- `struct Resolver { base_dir, jpaths }`. -/
structure Resolver where
  base_dir : FPath
  jpaths : List FPath

/-- The `for` loop of `Resolver::resolve`: try each candidate directory in
order, returning the first whose joined candidate is confirmed to exist;
`none` when the list is exhausted; an error when an existence check fails
(the error message names the raw path, as in the Rust `format!`). -/
def find_extant (stg : Storage) (path : FPath) : List FPath → Except Err (Option FPath)
  | [] => .ok none
  | dir :: rest =>
    let candidate := dir.join path
    match stg.tryExists candidate with
    | none => .error (.checkFailed path)
    | some true => .ok (some candidate)
    | some false => find_extant stg path rest

/-- `Resolver::resolve`. -/
def Resolver.resolve (r : Resolver) (stg : Storage) (path : FPath) : Except Err FPath :=
  -- If path is absolute, no need to check anything as the prefix doesn't matter.
  if path.absolute then .ok path
  -- If no jpaths set, this is a no-op and doesn't need to check for existence.
  else if r.jpaths.isEmpty then .ok (r.base_dir.join path)
  else
    -- Find the first extant match; fail if an existence check fails.
    match find_extant stg path (r.base_dir :: r.jpaths) with
    | .error e => .error e
    | .ok (some candidate) => .ok candidate
    -- None existed, fall back to the local case.
    | .ok none => .ok (r.base_dir.join path)

/-- `struct Analysis { leaf_deps, deep_deps }`. -/
structure Analysis where
  leaf_deps : List FPath
  deep_deps : List FPath
deriving DecidableEq, Repr

/-- `Analysis::default()`. -/
def Analysis.default : Analysis := ⟨[], []⟩

/-- `fn add_path`: resolve, then push onto the list unless already present. -/
def add_path (stg : Storage) (r : Resolver) (paths : List FPath) (path : FPath) :
    Except Err (List FPath) :=
  match r.resolve stg path with
  | .error e => .error e
  | .ok path => .ok (if path ∈ paths then paths else paths ++ [path])

mutual
/-- `fn scan_ast`: the recursive tree walk.  The `&mut Analysis` accumulator
is threaded as an explicit state value. -/
def scan_ast (stg : Storage) (r : Resolver) (analysis : Analysis) (e : Expr) :
    Except Err Analysis :=
  match e with
  -- Base cases: actual imports.
  | .Import path => do
    let deep_deps ← add_path stg r analysis.deep_deps path
    pure { analysis with deep_deps := deep_deps }
  | .ImportStr path => do
    let leaf_deps ← add_path stg r analysis.leaf_deps path
    pure { analysis with leaf_deps := leaf_deps }
  -- Otherwise, recurse if needed.
  | .Arr exprs => scan_exprs stg r analysis exprs
  | .ArrComp e compspecs => do
    let analysis ← scan_ast stg r analysis e
    scan_compspecs stg r analysis compspecs
  | .Obj obj => scan_obj stg r analysis obj
  | .ObjExtend e obj => do
    let analysis ← scan_ast stg r analysis e
    scan_obj stg r analysis obj
  | .Parened e => scan_ast stg r analysis e
  | .UnaryOp e => scan_ast stg r analysis e
  | .BinaryOp a b => do
    let analysis ← scan_ast stg r analysis a
    scan_ast stg r analysis b
  | .AssertExpr (.mk expr_a maybe_expr_b) expr_c => do
    let analysis ← scan_ast stg r analysis expr_a
    let analysis ← scan_opt stg r analysis maybe_expr_b
    scan_ast stg r analysis expr_c
  | .LocalExpr bindspecs e => do
    let analysis ← scan_bindspecs stg r analysis bindspecs
    scan_ast stg r analysis e
  | .ErrorStmt e => scan_ast stg r analysis e
  | .Apply e args => do
    let analysis ← scan_ast stg r analysis e
    scan_args stg r analysis args
  | .Index a b => do
    let analysis ← scan_ast stg r analysis a
    scan_ast stg r analysis b
  | .Function params e => do
    let analysis ← scan_params stg r analysis params
    scan_ast stg r analysis e
  | .IfElse cond cond_then cond_else => do
    let analysis ← scan_ast stg r analysis cond
    let analysis ← scan_ast stg r analysis cond_then
    scan_opt stg r analysis cond_else
  | .Slice e start_ end_ step_ => do
    let analysis ← scan_ast stg r analysis e
    let analysis ← scan_opt stg r analysis start_
    let analysis ← scan_opt stg r analysis end_
    scan_opt stg r analysis step_
  | .Literal => pure analysis

def scan_exprs (stg : Storage) (r : Resolver) (analysis : Analysis) :
    List Expr → Except Err Analysis
  | [] => pure analysis
  | e :: es => do
    let analysis ← scan_ast stg r analysis e
    scan_exprs stg r analysis es

def scan_opt (stg : Storage) (r : Resolver) (analysis : Analysis) :
    Option Expr → Except Err Analysis
  | none => pure analysis
  | some e => scan_ast stg r analysis e

/-- `fn scan_compspecs`. -/
def scan_compspecs (stg : Storage) (r : Resolver) (analysis : Analysis) :
    List CompSpec → Except Err Analysis
  | [] => pure analysis
  | compspec :: rest => do
    let analysis ←
      match compspec with
      | .IfSpec data => scan_ast stg r analysis data
      | .ForSpec data => scan_ast stg r analysis data
    scan_compspecs stg r analysis rest

/-- `fn scan_bindspec`: the optional parameter defaults, then the bound value. -/
def scan_bindspec (stg : Storage) (r : Resolver) (analysis : Analysis) :
    BindSpec → Except Err Analysis
  | .mk params value => do
    let analysis ←
      match params with
      | none => pure analysis
      | some params => scan_params stg r analysis params
    scan_ast stg r analysis value

def scan_bindspecs (stg : Storage) (r : Resolver) (analysis : Analysis) :
    List BindSpec → Except Err Analysis
  | [] => pure analysis
  | bindspec :: rest => do
    let analysis ← scan_bindspec stg r analysis bindspec
    scan_bindspecs stg r analysis rest

/-- The `for Param(_, maybe_expr) in params` loops: scan each default. -/
def scan_params (stg : Storage) (r : Resolver) (analysis : Analysis) :
    List Param → Except Err Analysis
  | [] => pure analysis
  | .mk maybe_expr :: rest => do
    let analysis ← scan_opt stg r analysis maybe_expr
    scan_params stg r analysis rest

/-- The `for Arg(_, expr) in args` loop. -/
def scan_args (stg : Storage) (r : Resolver) (analysis : Analysis) :
    List Arg → Except Err Analysis
  | [] => pure analysis
  | .mk e :: rest => do
    let analysis ← scan_ast stg r analysis e
    scan_args stg r analysis rest

/-- `fn scan_obj`. -/
def scan_obj (stg : Storage) (r : Resolver) (analysis : Analysis) :
    ObjBody → Except Err Analysis
  | .MemberList members => scan_members stg r analysis members
  | .ObjComp pre_locals key value post_locals compspecs => do
    let analysis ← scan_bindspecs stg r analysis pre_locals
    let analysis ← scan_ast stg r analysis key
    let analysis ← scan_ast stg r analysis value
    let analysis ← scan_bindspecs stg r analysis post_locals
    scan_compspecs stg r analysis compspecs

/-- One arm of the `for member in members` loop body of `scan_obj`. -/
def scan_member (stg : Storage) (r : Resolver) (analysis : Analysis) :
    Member → Except Err Analysis
  | .Field name params value => do
    let analysis ←
      match name with
      | .Fixed => pure analysis
      | .Dyn e => scan_ast stg r analysis e
    let analysis ←
      match params with
      | none => pure analysis
      | some params => scan_params stg r analysis params
    scan_ast stg r analysis value
  | .BindStmt bindspec => scan_bindspec stg r analysis bindspec
  | .AssertStmt (.mk expr maybe_expr) => do
    let analysis ← scan_ast stg r analysis expr
    scan_opt stg r analysis maybe_expr

def scan_members (stg : Storage) (r : Resolver) (analysis : Analysis) :
    List Member → Except Err Analysis
  | [] => pure analysis
  | member :: rest => do
    let analysis ← scan_member stg r analysis member
    scan_members stg r analysis rest
end

/-- `fn analyze_file`: read, parse, then scan from the file's parent
directory, starting from `Analysis::default()`. -/
def analyze_file (stg : Storage) (jpaths : List FPath) (filepath : FPath) :
    Except Err Analysis :=
  match stg.readFile filepath with
  | none => .error (.readFailed filepath)
  | some contents =>
    match contents with
    | none => .error (.parseFailed filepath)
    | some ast =>
      -- Path should always have a parent given we managed to open it as a
      -- file earlier; the Rust code unwraps, which would panic otherwise.
      match filepath.parent with
      | none => .error .panicked
      | some base_dir =>
        scan_ast stg { base_dir := base_dir, jpaths := jpaths } Analysis.default ast


/-! ## Specification vocabulary for the extractor

`imports_of` lists, in the exact order `scan_ast` visits them, every import
reference of a tree, tagged `true` for a module import (`Expr::Import`,
feeding `deep_deps`) and `false` for an inline-text import (`Expr::ImportStr`,
feeding `leaf_deps`).  `resolveImports` resolves each reference in order and
`applyImports` replays the `add_path` insertions; together they give a closed
form for what extraction computes. -/

/-- `add_path`'s insertion discipline, as a pure operation. -/
def addIfAbsent (paths : List FPath) (path : FPath) : List FPath :=
  if path ∈ paths then paths else paths ++ [path]

mutual
def imports_of : Expr → List (Bool × FPath)
  | .Import path => [(true, path)]
  | .ImportStr path => [(false, path)]
  | .Arr exprs => imports_of_exprs exprs
  | .ArrComp e compspecs => imports_of e ++ imports_of_compspecs compspecs
  | .Obj obj => imports_of_obj obj
  | .ObjExtend e obj => imports_of e ++ imports_of_obj obj
  | .Parened e => imports_of e
  | .UnaryOp e => imports_of e
  | .BinaryOp a b => imports_of a ++ imports_of b
  | .AssertExpr (.mk expr_a maybe_expr_b) expr_c =>
    imports_of expr_a ++ (imports_of_opt maybe_expr_b ++ imports_of expr_c)
  | .LocalExpr bindspecs e => imports_of_bindspecs bindspecs ++ imports_of e
  | .ErrorStmt e => imports_of e
  | .Apply e args => imports_of e ++ imports_of_args args
  | .Index a b => imports_of a ++ imports_of b
  | .Function params e => imports_of_params params ++ imports_of e
  | .IfElse cond cond_then cond_else =>
    imports_of cond ++ (imports_of cond_then ++ imports_of_opt cond_else)
  | .Slice e start_ end_ step_ =>
    imports_of e ++ (imports_of_opt start_ ++ (imports_of_opt end_ ++ imports_of_opt step_))
  | .Literal => []

def imports_of_exprs : List Expr → List (Bool × FPath)
  | [] => []
  | e :: es => imports_of e ++ imports_of_exprs es

def imports_of_opt : Option Expr → List (Bool × FPath)
  | none => []
  | some e => imports_of e

def imports_of_compspecs : List CompSpec → List (Bool × FPath)
  | [] => []
  | .IfSpec data :: rest => imports_of data ++ imports_of_compspecs rest
  | .ForSpec data :: rest => imports_of data ++ imports_of_compspecs rest

def imports_of_bindspec : BindSpec → List (Bool × FPath)
  | .mk params value => imports_of_params_opt params ++ imports_of value

def imports_of_bindspecs : List BindSpec → List (Bool × FPath)
  | [] => []
  | bindspec :: rest => imports_of_bindspec bindspec ++ imports_of_bindspecs rest

def imports_of_params : List Param → List (Bool × FPath)
  | [] => []
  | .mk maybe_expr :: rest => imports_of_opt maybe_expr ++ imports_of_params rest

def imports_of_params_opt : Option (List Param) → List (Bool × FPath)
  | none => []
  | some params => imports_of_params params

def imports_of_args : List Arg → List (Bool × FPath)
  | [] => []
  | .mk e :: rest => imports_of e ++ imports_of_args rest

def imports_of_obj : ObjBody → List (Bool × FPath)
  | .MemberList members => imports_of_members members
  | .ObjComp pre_locals key value post_locals compspecs =>
    imports_of_bindspecs pre_locals ++ (imports_of key ++ (imports_of value ++
      (imports_of_bindspecs post_locals ++ imports_of_compspecs compspecs)))

def imports_of_member : Member → List (Bool × FPath)
  | .Field name params value =>
    imports_of_field_name name ++ (imports_of_params_opt params ++ imports_of value)
  | .BindStmt bindspec => imports_of_bindspec bindspec
  | .AssertStmt (.mk expr maybe_expr) => imports_of expr ++ imports_of_opt maybe_expr

def imports_of_field_name : FieldName → List (Bool × FPath)
  | .Fixed => []
  | .Dyn e => imports_of e

def imports_of_members : List Member → List (Bool × FPath)
  | [] => []
  | member :: rest => imports_of_member member ++ imports_of_members rest
end

/-- Resolve each tagged import reference in order, keeping the tags. -/
def resolveImports (stg : Storage) (r : Resolver) :
    List (Bool × FPath) → Except Err (List (Bool × FPath))
  | [] => .ok []
  | (kind, path) :: rest =>
    match r.resolve stg path with
    | .error e => .error e
    | .ok resolved =>
      match resolveImports stg r rest with
      | .error e => .error e
      | .ok rest' => .ok ((kind, resolved) :: rest')

/-- Replay one resolved import reference into an `Analysis`. -/
def applyOne (a : Analysis) : Bool × FPath → Analysis
  | (true, path) => { a with deep_deps := addIfAbsent a.deep_deps path }
  | (false, path) => { a with leaf_deps := addIfAbsent a.leaf_deps path }

/-- Replay a sequence of resolved import references into an `Analysis`. -/
def applyImports (a : Analysis) (l : List (Bool × FPath)) : Analysis :=
  l.foldl applyOne a

/-- The paths in a tagged list carrying the given tag, in order. -/
def pathsOf (kind : Bool) (l : List (Bool × FPath)) : List FPath :=
  l.filterMap (fun kp => if kp.1 = kind then some kp.2 else none)

/-! ## The closure engine (`fn resolve_deps`)

The Rust `HashMap` cache is modelled as an association list (`cacheGet` is
lookup, insertion is `cons`); the `HashSet` of dependencies as a list with
insert-if-absent (`hsInsert`); the `while let Some(..) = to_expand.pop()`
loop gets explicit fuel.  The `Vec` work-list pushes to and pops from the
same end, so with the list head as the top of the stack, `Vec::push` is
`cons` and the `for deep_dep in deep_deps` loop is a left fold of `cons`.

`wl_loop` is the loop body factored over the work-list discipline `push`
(how a file's deep deps enter the pending list); `resolve_deps` instantiates
it with the stack discipline of the Rust code, `resolve_deps_fifo` with the
queue discipline the specification declares equivalent. -/

/-- The analysis cache (`HashMap<PathBuf, Analysis>`). -/
def Cache : Type := List (FPath × Analysis)

/-- `HashMap` lookup. -/
def cacheGet : Cache → FPath → Option Analysis
  | [], _ => none
  | (k, v) :: rest, f => if k = f then some v else cacheGet rest f

/-- `HashSet::insert`. -/
def hsInsert (s : List FPath) (p : FPath) : List FPath :=
  if p ∈ s then s else p :: s

/-- One run of the work-list loop, generic in the push discipline. -/
def wl_loop (push : List FPath → List FPath → List FPath) (stg : Storage)
    (jpaths : List FPath) :
    Nat → Cache → List FPath → List FPath → Option (Except Err (List FPath) × Cache)
  | 0, _, _, _ => none
  | fuel + 1, cache, deps, to_expand =>
    match to_expand with
    | [] => some (.ok deps, cache)
    | filename :: to_expand =>
      -- Possible to have already seen this dep if the graph contains loops.
      if filename ∈ deps then
        wl_loop push stg jpaths fuel cache deps to_expand
      else
        let deps := hsInsert deps filename
        -- Two-step entry access: analyze_file may error, so a failed
        -- computation must not populate the cache entry.
        match cacheGet cache filename with
        | some analysis =>
          wl_loop push stg jpaths fuel cache
            (analysis.leaf_deps.foldl hsInsert deps)
            (push analysis.deep_deps to_expand)
        | none =>
          match analyze_file stg jpaths filename with
          | .error e => some (.error e, cache)
          | .ok analysis =>
            wl_loop push stg jpaths fuel ((filename, analysis) :: cache)
              (analysis.leaf_deps.foldl hsInsert deps)
              (push analysis.deep_deps to_expand)

/-- `Vec::push` for each deep dep, with the head of the list as the top of
the stack (the end of the `Vec`). -/
def stack_push (deeps : List FPath) (to_expand : List FPath) : List FPath :=
  deeps.foldl (fun s d => d :: s) to_expand

/-- The hypothetical FIFO discipline: append each deep dep at the back. -/
def queue_push (deeps : List FPath) (to_expand : List FPath) : List FPath :=
  deeps.foldl (fun q d => q ++ [d]) to_expand

/-- `fn resolve_deps`: start from an empty dependency set and a work-list
holding only the root, run the loop with the Rust stack discipline. -/
def resolve_deps (fuel : Nat) (stg : Storage) (jpaths : List FPath) (cache : Cache)
    (filename : FPath) : Option (Except Err (List FPath) × Cache) :=
  wl_loop stack_push stg jpaths fuel cache [] [filename]

/-- The FIFO variant of `resolve_deps` named by the specification. -/
def resolve_deps_fifo (fuel : Nat) (stg : Storage) (jpaths : List FPath) (cache : Cache)
    (filename : FPath) : Option (Except Err (List FPath) × Cache) :=
  wl_loop queue_push stg jpaths fuel cache [] [filename]

/-! ## Vocabulary for reasoning about closure runs -/

/-- The analysis a run started with cache `cache` effectively associates to a
file: the cached entry if present, otherwise a fresh extraction. -/
def effAnalysis (stg : Storage) (jpaths : List FPath) (cache : Cache)
    (f : FPath) : Except Err Analysis :=
  match cacheGet cache f with
  | some analysis => .ok analysis
  | none => analyze_file stg jpaths f

/-- The deep deps an analysis source assigns to a file (empty on failure). -/
def deepsOf (A : FPath → Except Err Analysis) (f : FPath) : List FPath :=
  match A f with
  | .ok a => a.deep_deps
  | .error _ => []

/-- The leaf deps an analysis source assigns to a file (empty on failure). -/
def leafsOf (A : FPath → Except Err Analysis) (f : FPath) : List FPath :=
  match A f with
  | .ok a => a.leaf_deps
  | .error _ => []

/-- `U` is a finite universe for the deep-dependency graph of `root` under
the analysis source `A`: it contains the root and is closed under deep
dependencies.  This is the shape of the specification's "finite
deep-dependency graph" hypothesis. -/
def GoodUniverse (A : FPath → Except Err Analysis) (root : FPath)
    (U : List FPath) : Prop :=
  root ∈ U ∧ ∀ f ∈ U, ∀ d ∈ deepsOf A f, d ∈ U

/-- No file of the universe also occurs as a leaf dependency of a file of the
universe: leaf/deep classification is globally consistent on the graph. -/
def LeafDisjoint (A : FPath → Except Err Analysis) (U : List FPath) : Prop :=
  ∀ f ∈ U, ∀ l ∈ leafsOf A f, l ∉ U

/-- The running cache agrees with the analysis source `A`: hits return what
`A` says, and on a miss a fresh extraction computes what `A` says. -/
def CacheOK (stg : Storage) (jpaths : List FPath) (A : FPath → Except Err Analysis)
    (cache : Cache) : Prop :=
  (∀ f a, cacheGet cache f = some a → A f = .ok a) ∧
  (∀ f, cacheGet cache f = none → analyze_file stg jpaths f = A f)

/-- Deep-dependency reachability under an analysis source. -/
def Reaches (A : FPath → Except Err Analysis) : FPath → FPath → Prop :=
  Relation.ReflTransGen (fun a b => b ∈ deepsOf A a)

/-- The declarative dependency set of a root: every deep-reachable file, plus
the leaf deps of every deep-reachable file. -/
def ClosureSet (A : FPath → Except Err Analysis) (root : FPath) (p : FPath) : Prop :=
  ∃ g, Reaches A root g ∧ (p = g ∨ p ∈ leafsOf A g)

/-- The number of elements of `U` not yet in `deps` (with multiplicity):
the termination measure of the work-list loop. -/
def absentCount (deps U : List FPath) : Nat :=
  U.countP (fun u => decide (u ∉ deps))

/-- How a run may grow the cache: every entry is either an old entry or a
fresh entry holding a successfully computed analysis for a previously absent
key. -/
def CacheExt (stg : Storage) (jpaths : List FPath) (c c' : Cache) : Prop :=
  ∀ f, cacheGet c' f = cacheGet c f ∨
    (cacheGet c f = none ∧
      ∃ b, cacheGet c' f = some b ∧ analyze_file stg jpaths f = .ok b)

/-! ## Specification predicates for the scanner -/

/-- Success contract of a scanning step: whenever it succeeds, the references
`il` all resolve and the result is the replay of the resolved references onto
the incoming accumulator. -/
def ScanOk (stg : Storage) (r : Resolver) (f : Analysis → Except Err Analysis)
    (il : List (Bool × FPath)) : Prop :=
  ∀ a a', f a = .ok a' →
    ∃ rl, resolveImports stg r il = .ok rl ∧ a' = applyImports a rl

/-- Failure contract of a scanning step: every error it returns is a path
resolution error. -/
def ScanResolveErr (f : Analysis → Except Err Analysis) : Prop :=
  ∀ a e, f a = .error e → ∃ p, e = Err.checkFailed p

/-- Full contract of a scanning step. -/
def ScanSpec (stg : Storage) (r : Resolver) (f : Analysis → Except Err Analysis)
    (il : List (Bool × FPath)) : Prop :=
  ScanOk stg r f il ∧ ScanResolveErr f

/-! ## Concrete scenarios

Shared test fixtures used by the witnesses and counterexamples below.  All
paths imported in them are absolute unless a scenario is about resolution,
so that resolution is the identity and the file-system surface stays
minimal. -/

def pR : FPath := ⟨true, ["R"]⟩
def pA : FPath := ⟨true, ["A"]⟩
def pB : FPath := ⟨true, ["B"]⟩
def pC : FPath := ⟨true, ["C"]⟩
def pS : FPath := ⟨true, ["S"]⟩
def pM : FPath := ⟨true, ["M"]⟩
def pLa : FPath := ⟨true, ["la"]⟩
def pLb : FPath := ⟨true, ["lb"]⟩
def pP : FPath := ⟨true, ["p"]⟩

/-- A storage with no readable files and no existing paths. -/
def stgEmpty : Storage where
  tryExists := fun _ => some false
  readFile := fun _ => none

/-- A resolver with an absolute base and no search roots. -/
def rPlain : Resolver := ⟨⟨true, []⟩, []⟩

/-- C2 scenario: `R` deep-imports `A` then `B`; `A` leaf-imports `B`;
`B` deep-imports `C`.  `B` is both a deep dep (of `R`) and a leaf dep
(of `A`), which makes the traversal order observable. -/
def stgOrder : Storage where
  tryExists := fun _ => some false
  readFile := fun p =>
    if p = pR then some (some (.Arr [.Import pA, .Import pB]))
    else if p = pA then some (some (.ImportStr pB))
    else if p = pB then some (some (.Import pC))
    else if p = pC then some (some .Literal)
    else none

/-- C6 scenario: the cyclic graph `A → B → A`, each file with one leaf dep. -/
def stgCycle : Storage where
  tryExists := fun _ => some false
  readFile := fun p =>
    if p = pA then some (some (.Arr [.ImportStr pLa, .Import pB]))
    else if p = pB then some (some (.Arr [.ImportStr pLb, .Import pA]))
    else none

/-- C7's end-to-end scenario paths. -/
def aCfg : FPath := ⟨true, ["w", "a.cfg"]⟩
def bCfg : FPath := ⟨true, ["w", "b.cfg"]⟩
def dataTxt : FPath := ⟨true, ["w", "data.txt"]⟩
def sharedTxt : FPath := ⟨true, ["w", "shared.txt"]⟩

/-- C7 scenario: `a.cfg` module-imports `b.cfg` and text-imports `data.txt`;
`b.cfg` text-imports `shared.txt`; imports are written relative, resolution
happens against the files' directory with no search roots. -/
def stgScenario : Storage where
  tryExists := fun _ => some false
  readFile := fun p =>
    if p = aCfg then
      some (some (.Arr [.Import ⟨false, ["b.cfg"]⟩, .ImportStr ⟨false, ["data.txt"]⟩]))
    else if p = bCfg then some (some (.ImportStr ⟨false, ["shared.txt"]⟩))
    else none

/-- C8 scenario: `A` deep-imports the unreadable `M`. -/
def stgFail : Storage where
  tryExists := fun _ => some false
  readFile := fun p =>
    if p = pA then some (some (.Arr [.ImportStr pLa, .Import pM]))
    else none

/-- C9 scenario: roots `A` and `B` share the deep dependency `S`. -/
def stgShared : Storage where
  tryExists := fun _ => some false
  readFile := fun p =>
    if p = pA then some (some (.Import pS))
    else if p = pB then some (some (.Import pS))
    else if p = pS then some (some .Literal)
    else none

/-- C3/C4 scenario directories: a base and two search roots. -/
def dBase : FPath := ⟨true, ["base"]⟩
def dR1 : FPath := ⟨true, ["r1"]⟩
def dR2 : FPath := ⟨true, ["r2"]⟩
def libRel : FPath := ⟨false, ["lib.ext"]⟩

/-- C3 witness storage: `lib.ext` exists under `r1` only. -/
def stgProbe : Storage where
  tryExists := fun p => some (decide (p = dR1.join libRel))
  readFile := fun _ => none

/-- C4 witness storage: the existence check fails under `r1`, and `lib.ext`
does not exist under the base directory. -/
def stgCheckFail : Storage where
  tryExists := fun p => if p = dR1.join libRel then none else some false
  readFile := fun _ => none

/-! ## Theorems: the Path Resolver -/

theorem find_extant_first (stg : Storage) (path : FPath) :
    ∀ (pre : List FPath) (dir : FPath) (post : List FPath),
      (∀ q ∈ pre, stg.tryExists (q.join path) = some false) →
      stg.tryExists (dir.join path) = some true →
      find_extant stg path (pre ++ dir :: post) = .ok (some (dir.join path))
  | [], dir, post, _, hdir => by
    simp only [List.nil_append, find_extant, hdir]
  | q :: pre, dir, post, hpre, hdir => by
    have hq : stg.tryExists (q.join path) = some false := hpre q (by simp)
    simp only [List.cons_append, find_extant, hq]
    exact find_extant_first stg path pre dir post
      (fun x hx => hpre x (List.mem_cons_of_mem q hx)) hdir

theorem find_extant_none (stg : Storage) (path : FPath) :
    ∀ (dirs : List FPath),
      (∀ q ∈ dirs, stg.tryExists (q.join path) = some false) →
      find_extant stg path dirs = .ok none
  | [], _ => rfl
  | q :: dirs, h => by
    have hq : stg.tryExists (q.join path) = some false := h q (by simp)
    simp only [find_extant, hq]
    exact find_extant_none stg path dirs (fun x hx => h x (List.mem_cons_of_mem q hx))

theorem find_extant_error_of (stg : Storage) (path : FPath) :
    ∀ (pre : List FPath) (dir : FPath) (post : List FPath),
      (∀ q ∈ pre, stg.tryExists (q.join path) = some false) →
      stg.tryExists (dir.join path) = none →
      find_extant stg path (pre ++ dir :: post) = .error (.checkFailed path)
  | [], dir, post, _, hdir => by
    simp only [List.nil_append, find_extant, hdir]
  | q :: pre, dir, post, hpre, hdir => by
    have hq : stg.tryExists (q.join path) = some false := hpre q (by simp)
    simp only [List.cons_append, find_extant, hq]
    exact find_extant_error_of stg path pre dir post
      (fun x hx => hpre x (List.mem_cons_of_mem q hx)) hdir

theorem find_extant_error_elim (stg : Storage) (path : FPath) :
    ∀ (dirs : List FPath) (e : Err),
      find_extant stg path dirs = .error e →
      e = .checkFailed path ∧
        ∃ pre dir post, dirs = pre ++ dir :: post ∧
          (∀ q ∈ pre, stg.tryExists (q.join path) = some false) ∧
          stg.tryExists (dir.join path) = none
  | [], e, h => by simp [find_extant] at h
  | q :: dirs, e, h => by
    match hq : stg.tryExists (q.join path) with
    | none =>
      simp only [find_extant, hq] at h
      injection h with h
      exact ⟨h.symm, [], q, dirs, rfl, by simp, hq⟩
    | some true => simp [find_extant, hq] at h
    | some false =>
      simp only [find_extant, hq] at h
      obtain ⟨he, pre, dir, post, hsplit, hpre, hdir⟩ :=
        find_extant_error_elim stg path dirs e h
      exact ⟨he, q :: pre, dir, post, by simp [hsplit],
        fun x hx => by
          rcases List.mem_cons.mp hx with hx | hx
          · exact hx ▸ hq
          · exact hpre x hx,
        hdir⟩

/-- C3: `resolve` behaves exactly as specified: an absolute raw path is
returned unchanged; with no search roots the base-joined path is returned;
otherwise candidates are probed in the order base directory first, then each
search root in order, the first candidate confirmed to exist is returned, and
when every candidate's check comes back negative the base-joined candidate is
returned as fallback without error. -/
theorem c3_resolve_order (stg : Storage) (r : Resolver) (path : FPath) :
    (path.absolute = true → r.resolve stg path = .ok path) ∧
    (r.jpaths = [] → r.resolve stg path = .ok (r.base_dir.join path)) ∧
    (path.absolute = false → r.jpaths ≠ [] →
      ∀ pre dir post, r.base_dir :: r.jpaths = pre ++ dir :: post →
        (∀ q ∈ pre, stg.tryExists (q.join path) = some false) →
        stg.tryExists (dir.join path) = some true →
        r.resolve stg path = .ok (dir.join path)) ∧
    (path.absolute = false →
      (∀ q ∈ r.base_dir :: r.jpaths, stg.tryExists (q.join path) = some false) →
      r.resolve stg path = .ok (r.base_dir.join path)) := by
  refine ⟨fun habs => ?_, fun hjp => ?_, fun habs hjp pre dir post hsplit hpre hdir => ?_,
    fun habs hall => ?_⟩
  · simp [Resolver.resolve, habs]
  · by_cases habs : path.absolute
    · simp [Resolver.resolve, habs, FPath.join]
    · simp [Resolver.resolve, habs, hjp]
  · have hfind := find_extant_first stg path pre dir post hpre hdir
    rw [← hsplit] at hfind
    simp [Resolver.resolve, habs, List.isEmpty_iff, hjp, hfind]
  · by_cases hjp : r.jpaths = []
    · simp [Resolver.resolve, habs, hjp]
    · have hfind := find_extant_none stg path (r.base_dir :: r.jpaths) hall
      simp [Resolver.resolve, habs, List.isEmpty_iff, hjp, hfind]

/-- C4: `resolve` fails exactly when, scanning the candidate prefixes in
order, every earlier candidate's existence check returned a clean "does not
exist" and then one candidate's existence check itself failed; the error is
the resolution error naming the raw path.  In particular an absolute raw path
or an empty search-root list never produces an error. -/
theorem c4_resolve_error_iff (stg : Storage) (r : Resolver) (path : FPath) (e : Err) :
    r.resolve stg path = .error e ↔
      (path.absolute = false ∧ r.jpaths ≠ [] ∧ e = .checkFailed path ∧
        ∃ pre dir post, r.base_dir :: r.jpaths = pre ++ dir :: post ∧
          (∀ q ∈ pre, stg.tryExists (q.join path) = some false) ∧
          stg.tryExists (dir.join path) = none) := by
  constructor
  · intro h
    by_cases habs : path.absolute
    · simp [Resolver.resolve, habs] at h
    · by_cases hjp : r.jpaths = []
      · simp [Resolver.resolve, habs, hjp] at h
      · refine ⟨by simpa using habs, hjp, ?_⟩
        simp only [Resolver.resolve, if_neg habs, List.isEmpty_iff, if_neg hjp] at h
        match hfind : find_extant stg path (r.base_dir :: r.jpaths) with
        | .error e' =>
          rw [hfind] at h
          injection h with h
          obtain ⟨he, rest⟩ := find_extant_error_elim stg path _ e' hfind
          exact ⟨h ▸ he, rest⟩
        | .ok (some c) => rw [hfind] at h; exact absurd h (by simp)
        | .ok none => rw [hfind] at h; exact absurd h (by simp)
  · rintro ⟨habs, hjp, he, pre, dir, post, hsplit, hpre, hdir⟩
    have hfind := find_extant_error_of stg path pre dir post hpre hdir
    rw [← hsplit] at hfind
    simp [Resolver.resolve, habs, List.isEmpty_iff, hjp, hfind, he]

/-- Witness for C3: with search roots `[r1, r2]` and `lib.ext` existing only
under `r1`, resolution returns `r1/lib.ext`. -/
theorem c3_witness :
    Resolver.resolve ⟨dBase, [dR1, dR2]⟩ stgProbe libRel = .ok (dR1.join libRel) := by
  exact (c3_resolve_order stgProbe ⟨dBase, [dR1, dR2]⟩ libRel).2.2.1 rfl (by simp)
    [dBase] dR1 [dR2] rfl (by decide) (by decide)

/-- Witness for C4: the failing existence check under `r1` (after a clean
miss under the base directory) surfaces as a resolution error. -/
theorem c4_witness :
    Resolver.resolve ⟨dBase, [dR1, dR2]⟩ stgCheckFail libRel = .error (.checkFailed libRel) := by
  exact (c4_resolve_error_iff stgCheckFail ⟨dBase, [dR1, dR2]⟩ libRel
    (.checkFailed libRel)).mpr ⟨rfl, by simp, rfl, [dBase], dR1, [dR2], rfl,
      by decide, by decide⟩

/-! ## Theorems: the Import Extractor -/

theorem resolve_error_shape {stg : Storage} {r : Resolver} {path : FPath} {e : Err}
    (h : r.resolve stg path = .error e) : e = .checkFailed path := by
  by_cases habs : path.absolute
  · simp [Resolver.resolve, habs] at h
  · by_cases hjp : r.jpaths = []
    · simp [Resolver.resolve, habs, hjp] at h
    · simp only [Resolver.resolve, if_neg habs, List.isEmpty_iff, if_neg hjp] at h
      match hfind : find_extant stg path (r.base_dir :: r.jpaths) with
      | .error e' =>
        rw [hfind] at h
        injection h with h
        exact h ▸ (find_extant_error_elim stg path _ e' hfind).1
      | .ok (some c) => rw [hfind] at h; exact absurd h (by simp)
      | .ok none => rw [hfind] at h; exact absurd h (by simp)

theorem resolveImports_append (stg : Storage) (r : Resolver) :
    ∀ (l1 : List (Bool × FPath)) {l2 rl1 rl2},
      resolveImports stg r l1 = .ok rl1 → resolveImports stg r l2 = .ok rl2 →
      resolveImports stg r (l1 ++ l2) = .ok (rl1 ++ rl2)
  | [], l2, rl1, rl2, h1, h2 => by
    simp only [resolveImports] at h1
    injection h1 with h1
    simpa [← h1] using h2
  | (kind, path) :: rest, l2, rl1, rl2, h1, h2 => by
    simp only [resolveImports, List.cons_append] at h1 ⊢
    match hres : r.resolve stg path with
    | .error e => rw [hres] at h1; exact absurd h1 (by simp)
    | .ok q =>
      rw [hres] at h1
      match hrest : resolveImports stg r rest with
      | .error e => rw [hrest] at h1; exact absurd h1 (by simp)
      | .ok rest' =>
        rw [hrest] at h1
        injection h1 with h1
        simp [resolveImports_append stg r rest hrest h2, ← h1]

theorem applyImports_append (a : Analysis) (l1 l2 : List (Bool × FPath)) :
    applyImports a (l1 ++ l2) = applyImports (applyImports a l1) l2 := by
  simp [applyImports, List.foldl_append]

theorem scanSpec_pure (stg : Storage) (r : Resolver) :
    ScanSpec stg r (fun a => pure a) [] := by
  refine ⟨fun a a' h => ⟨[], rfl, ?_⟩, fun a e h => absurd h (by simp [pure, Except.pure])⟩
  injection h with h
  simpa [applyImports] using h.symm

theorem scanSpec_seq {stg : Storage} {r : Resolver}
    {f g : Analysis → Except Err Analysis} {l1 l2 : List (Bool × FPath)}
    (hf : ScanSpec stg r f l1) (hg : ScanSpec stg r g l2) :
    ScanSpec stg r (fun a => (f a).bind g) (l1 ++ l2) := by
  constructor
  · intro a a' h
    change (f a).bind g = Except.ok a' at h
    match hfa : f a with
    | .error e => rw [hfa] at h; exact absurd h (by simp [Except.bind])
    | .ok a1 =>
      rw [hfa] at h
      obtain ⟨rl1, hres1, happ1⟩ := hf.1 a a1 hfa
      obtain ⟨rl2, hres2, happ2⟩ := hg.1 a1 a' h
      exact ⟨rl1 ++ rl2, resolveImports_append stg r l1 hres1 hres2, by
        rw [applyImports_append, ← happ1, ← happ2]⟩
  · intro a e h
    change (f a).bind g = Except.error e at h
    match hfa : f a with
    | .error e' =>
      rw [hfa] at h
      have he : e' = e := by injection h
      exact he ▸ hf.2 a e' hfa
    | .ok a1 =>
      rw [hfa] at h
      exact hg.2 a1 e h

theorem scanSpec_import (stg : Storage) (r : Resolver) (path : FPath) :
    ScanSpec stg r
      (fun a => (add_path stg r a.deep_deps path).bind
        (fun deep_deps => pure { a with deep_deps := deep_deps }))
      [(true, path)] := by
  constructor
  · intro a a' h
    simp only [add_path] at h
    match hres : r.resolve stg path with
    | .error e => rw [hres] at h; exact absurd h (by simp [Except.bind])
    | .ok q =>
      rw [hres] at h
      injection h with h
      exact ⟨[(true, q)], by simp [resolveImports, hres],
        by simp [applyImports, applyOne, addIfAbsent, ← h]⟩
  · intro a e h
    simp only [add_path] at h
    match hres : r.resolve stg path with
    | .error e' =>
      rw [hres] at h
      have he : e' = e := by injection h
      exact ⟨path, he ▸ resolve_error_shape hres⟩
    | .ok q => rw [hres] at h; exact absurd h (by simp [Except.bind, pure, Except.pure])

theorem scanSpec_importstr (stg : Storage) (r : Resolver) (path : FPath) :
    ScanSpec stg r
      (fun a => (add_path stg r a.leaf_deps path).bind
        (fun leaf_deps => pure { a with leaf_deps := leaf_deps }))
      [(false, path)] := by
  constructor
  · intro a a' h
    simp only [add_path] at h
    match hres : r.resolve stg path with
    | .error e => rw [hres] at h; exact absurd h (by simp [Except.bind])
    | .ok q =>
      rw [hres] at h
      injection h with h
      exact ⟨[(false, q)], by simp [resolveImports, hres],
        by simp [applyImports, applyOne, addIfAbsent, ← h]⟩
  · intro a e h
    simp only [add_path] at h
    match hres : r.resolve stg path with
    | .error e' =>
      rw [hres] at h
      have he : e' = e := by injection h
      exact ⟨path, he ▸ resolve_error_shape hres⟩
    | .ok q => rw [hres] at h; exact absurd h (by simp [Except.bind, pure, Except.pure])

mutual
theorem scan_ast_spec (stg : Storage) (r : Resolver) :
    ∀ e : Expr, ScanSpec stg r (fun a => scan_ast stg r a e) (imports_of e)
  | .Import path => scanSpec_import stg r path
  | .ImportStr path => scanSpec_importstr stg r path
  | .Arr exprs => scan_exprs_spec stg r exprs
  | .ArrComp e compspecs =>
    scanSpec_seq (scan_ast_spec stg r e) (scan_compspecs_spec stg r compspecs)
  | .Obj obj => scan_obj_spec stg r obj
  | .ObjExtend e obj => scanSpec_seq (scan_ast_spec stg r e) (scan_obj_spec stg r obj)
  | .Parened e => scan_ast_spec stg r e
  | .UnaryOp e => scan_ast_spec stg r e
  | .BinaryOp a b => scanSpec_seq (scan_ast_spec stg r a) (scan_ast_spec stg r b)
  | .AssertExpr (.mk expr_a maybe_expr_b) expr_c =>
    scanSpec_seq (scan_ast_spec stg r expr_a)
      (scanSpec_seq (scan_opt_spec stg r maybe_expr_b) (scan_ast_spec stg r expr_c))
  | .LocalExpr bindspecs e =>
    scanSpec_seq (scan_bindspecs_spec stg r bindspecs) (scan_ast_spec stg r e)
  | .ErrorStmt e => scan_ast_spec stg r e
  | .Apply e args => scanSpec_seq (scan_ast_spec stg r e) (scan_args_spec stg r args)
  | .Index a b => scanSpec_seq (scan_ast_spec stg r a) (scan_ast_spec stg r b)
  | .Function params e =>
    scanSpec_seq (scan_params_spec stg r params) (scan_ast_spec stg r e)
  | .IfElse cond cond_then cond_else =>
    scanSpec_seq (scan_ast_spec stg r cond)
      (scanSpec_seq (scan_ast_spec stg r cond_then) (scan_opt_spec stg r cond_else))
  | .Slice e start_ end_ step_ =>
    scanSpec_seq (scan_ast_spec stg r e)
      (scanSpec_seq (scan_opt_spec stg r start_)
        (scanSpec_seq (scan_opt_spec stg r end_) (scan_opt_spec stg r step_)))
  | .Literal => scanSpec_pure stg r

theorem scan_exprs_spec (stg : Storage) (r : Resolver) :
    ∀ es : List Expr, ScanSpec stg r (fun a => scan_exprs stg r a es) (imports_of_exprs es)
  | [] => scanSpec_pure stg r
  | e :: es => scanSpec_seq (scan_ast_spec stg r e) (scan_exprs_spec stg r es)

theorem scan_opt_spec (stg : Storage) (r : Resolver) :
    ∀ o : Option Expr, ScanSpec stg r (fun a => scan_opt stg r a o) (imports_of_opt o)
  | none => scanSpec_pure stg r
  | some e => scan_ast_spec stg r e

theorem scan_compspecs_spec (stg : Storage) (r : Resolver) :
    ∀ cs : List CompSpec,
      ScanSpec stg r (fun a => scan_compspecs stg r a cs) (imports_of_compspecs cs)
  | [] => scanSpec_pure stg r
  | .IfSpec data :: rest =>
    scanSpec_seq (scan_ast_spec stg r data) (scan_compspecs_spec stg r rest)
  | .ForSpec data :: rest =>
    scanSpec_seq (scan_ast_spec stg r data) (scan_compspecs_spec stg r rest)

theorem scan_bindspec_spec (stg : Storage) (r : Resolver) :
    ∀ b : BindSpec, ScanSpec stg r (fun a => scan_bindspec stg r a b) (imports_of_bindspec b)
  | .mk none value => scanSpec_seq (scanSpec_pure stg r) (scan_ast_spec stg r value)
  | .mk (some params) value =>
    scanSpec_seq (scan_params_spec stg r params) (scan_ast_spec stg r value)

theorem scan_bindspecs_spec (stg : Storage) (r : Resolver) :
    ∀ bs : List BindSpec,
      ScanSpec stg r (fun a => scan_bindspecs stg r a bs) (imports_of_bindspecs bs)
  | [] => scanSpec_pure stg r
  | b :: rest => scanSpec_seq (scan_bindspec_spec stg r b) (scan_bindspecs_spec stg r rest)

theorem scan_params_spec (stg : Storage) (r : Resolver) :
    ∀ ps : List Param, ScanSpec stg r (fun a => scan_params stg r a ps) (imports_of_params ps)
  | [] => scanSpec_pure stg r
  | .mk maybe_expr :: rest =>
    scanSpec_seq (scan_opt_spec stg r maybe_expr) (scan_params_spec stg r rest)

theorem scan_args_spec (stg : Storage) (r : Resolver) :
    ∀ args : List Arg, ScanSpec stg r (fun a => scan_args stg r a args) (imports_of_args args)
  | [] => scanSpec_pure stg r
  | .mk e :: rest => scanSpec_seq (scan_ast_spec stg r e) (scan_args_spec stg r rest)

theorem scan_obj_spec (stg : Storage) (r : Resolver) :
    ∀ obj : ObjBody, ScanSpec stg r (fun a => scan_obj stg r a obj) (imports_of_obj obj)
  | .MemberList members => scan_members_spec stg r members
  | .ObjComp pre_locals key value post_locals compspecs =>
    scanSpec_seq (scan_bindspecs_spec stg r pre_locals)
      (scanSpec_seq (scan_ast_spec stg r key)
        (scanSpec_seq (scan_ast_spec stg r value)
          (scanSpec_seq (scan_bindspecs_spec stg r post_locals)
            (scan_compspecs_spec stg r compspecs))))

theorem scan_member_spec (stg : Storage) (r : Resolver) :
    ∀ m : Member, ScanSpec stg r (fun a => scan_member stg r a m) (imports_of_member m)
  | .Field .Fixed none value => scan_ast_spec stg r value
  | .Field .Fixed (some params) value => by
    show ScanSpec stg r
      (fun a => scan_member stg r a (.Field .Fixed (some params) value))
      (imports_of_params params ++ imports_of value)
    exact scanSpec_seq (scan_params_spec stg r params) (scan_ast_spec stg r value)
  | .Field (.Dyn e) none value =>
    scanSpec_seq (scan_ast_spec stg r e)
      (scanSpec_seq (scanSpec_pure stg r) (scan_ast_spec stg r value))
  | .Field (.Dyn e) (some params) value =>
    scanSpec_seq (scan_ast_spec stg r e)
      (scanSpec_seq (scan_params_spec stg r params) (scan_ast_spec stg r value))
  | .BindStmt b => scan_bindspec_spec stg r b
  | .AssertStmt (.mk expr maybe_expr) =>
    scanSpec_seq (scan_ast_spec stg r expr) (scan_opt_spec stg r maybe_expr)

theorem scan_members_spec (stg : Storage) (r : Resolver) :
    ∀ ms : List Member,
      ScanSpec stg r (fun a => scan_members stg r a ms) (imports_of_members ms)
  | [] => scanSpec_pure stg r
  | m :: rest => scanSpec_seq (scan_member_spec stg r m) (scan_members_spec stg r rest)
end

theorem mem_addIfAbsent {l : List FPath} {p x : FPath} :
    x ∈ addIfAbsent l p ↔ x ∈ l ∨ x = p := by
  by_cases hp : p ∈ l
  · simp only [addIfAbsent, if_pos hp]
    exact ⟨Or.inl, fun h => h.elim id (fun hx => hx ▸ hp)⟩
  · simp [addIfAbsent, hp]

theorem nodup_addIfAbsent {l : List FPath} {p : FPath} (h : l.Nodup) :
    (addIfAbsent l p).Nodup := by
  by_cases hp : p ∈ l
  · simpa [addIfAbsent, hp] using h
  · simp [addIfAbsent, hp, List.nodup_append, h]

theorem mem_foldl_addIfAbsent :
    ∀ (l : List FPath) (init : List FPath) (x : FPath),
      x ∈ List.foldl addIfAbsent init l ↔ x ∈ init ∨ x ∈ l
  | [], init, x => by simp
  | p :: l, init, x => by
    rw [List.foldl_cons, mem_foldl_addIfAbsent l (addIfAbsent init p) x, mem_addIfAbsent]
    simp only [List.mem_cons]
    tauto

theorem nodup_foldl_addIfAbsent :
    ∀ (l : List FPath) (init : List FPath), init.Nodup →
      (List.foldl addIfAbsent init l).Nodup
  | [], _, h => h
  | p :: l, init, h =>
    nodup_foldl_addIfAbsent l (addIfAbsent init p) (nodup_addIfAbsent h)

theorem applyImports_leaf_deps :
    ∀ (rl : List (Bool × FPath)) (a : Analysis),
      (applyImports a rl).leaf_deps = List.foldl addIfAbsent a.leaf_deps (pathsOf false rl)
  | [], a => rfl
  | (true, p) :: rl, a => by
    simpa [applyImports, applyOne, pathsOf] using applyImports_leaf_deps rl _
  | (false, p) :: rl, a => by
    simpa [applyImports, applyOne, pathsOf] using applyImports_leaf_deps rl _

theorem applyImports_deep_deps :
    ∀ (rl : List (Bool × FPath)) (a : Analysis),
      (applyImports a rl).deep_deps = List.foldl addIfAbsent a.deep_deps (pathsOf true rl)
  | [], a => rfl
  | (true, p) :: rl, a => by
    simpa [applyImports, applyOne, pathsOf] using applyImports_deep_deps rl _
  | (false, p) :: rl, a => by
    simpa [applyImports, applyOne, pathsOf] using applyImports_deep_deps rl _

theorem mem_pathsOf {kind : Bool} {rl : List (Bool × FPath)} {p : FPath} :
    p ∈ pathsOf kind rl ↔ (kind, p) ∈ rl := by
  simp only [pathsOf, List.mem_filterMap]
  constructor
  · rintro ⟨⟨k, q⟩, hmem, hval⟩
    by_cases hk : k = kind
    · subst hk
      simp at hval
      exact hval ▸ hmem
    · simp [hk] at hval
  · intro hmem
    exact ⟨(kind, p), hmem, by simp⟩

/-- C5: whenever the scanner succeeds, every reference it encountered got
resolved, inline-text imports were replayed (in first-encountered order) into
`leaf_deps` and module imports into `deep_deps`, each via insert-if-absent;
consequently, starting from deduplicated lists, both result lists stay
deduplicated. -/
theorem c5_extraction (stg : Storage) (r : Resolver) (a : Analysis) (e : Expr)
    (a' : Analysis) (h : scan_ast stg r a e = .ok a') :
    ∃ rl, resolveImports stg r (imports_of e) = .ok rl ∧
      a'.leaf_deps = List.foldl addIfAbsent a.leaf_deps (pathsOf false rl) ∧
      a'.deep_deps = List.foldl addIfAbsent a.deep_deps (pathsOf true rl) ∧
      (a.leaf_deps.Nodup → a'.leaf_deps.Nodup) ∧
      (a.deep_deps.Nodup → a'.deep_deps.Nodup) := by
  obtain ⟨rl, hres, happ⟩ := (scan_ast_spec stg r e).1 a a' h
  subst happ
  refine ⟨rl, hres, applyImports_leaf_deps rl a, applyImports_deep_deps rl a, ?_, ?_⟩
  · intro hnd
    rw [applyImports_leaf_deps rl a]
    exact nodup_foldl_addIfAbsent _ _ hnd
  · intro hnd
    rw [applyImports_deep_deps rl a]
    exact nodup_foldl_addIfAbsent _ _ hnd

/-- Witness for C5, on the specification's own example: a file text-importing
`x` and module-importing `y` yields `leaf_deps = [x]`, `deep_deps = [y]`,
both deduplicated. -/
theorem c5_witness :
    (Analysis.mk [pC] [pP]).leaf_deps =
      List.foldl addIfAbsent Analysis.default.leaf_deps
        (pathsOf false [(false, pC), (true, pP)]) ∧
    (Analysis.mk [pC] [pP]).deep_deps =
      List.foldl addIfAbsent Analysis.default.deep_deps
        (pathsOf true [(false, pC), (true, pP)]) ∧
    (Analysis.mk [pC] [pP]).leaf_deps.Nodup ∧
    (Analysis.mk [pC] [pP]).deep_deps.Nodup := by
  obtain ⟨rl, h1, h2, h3, h4, h5⟩ :=
    c5_extraction stgEmpty rPlain Analysis.default
      (.Arr [.ImportStr pC, .Import pP]) ⟨[pC], [pP]⟩ rfl
  have h0 : resolveImports stgEmpty rPlain
      (imports_of (.Arr [.ImportStr pC, .Import pP])) =
        .ok [(false, pC), (true, pP)] := rfl
  rw [h0] at h1
  injection h1 with h1
  subst h1
  exact ⟨h2, h3, h4 (by simp [Analysis.default]), h5 (by simp [Analysis.default])⟩

/-- C1 counterexample: a tree that module-imports and text-imports the same
path produces an analysis whose two lists share that path, so the claimed
invariant fails as stated. -/
theorem c1_counterexample :
    ∃ a, scan_ast stgEmpty rPlain Analysis.default
        (.Arr [.Import pP, .ImportStr pP]) = .ok a ∧
      pP ∈ a.leaf_deps ∧ pP ∈ a.deep_deps :=
  ⟨⟨[pP], [pP]⟩, rfl, by simp, by simp⟩

/-- C1 (amended): a resolved path appears in both lists of an extracted
Analysis only when the tree references it through both import constructs;
whenever no resolved path is referenced by both an `import` and an
`importstr`, the two lists are disjoint. -/
theorem c1_amended (stg : Storage) (r : Resolver) (e : Expr) (a : Analysis)
    (h : scan_ast stg r Analysis.default e = .ok a)
    (hdisj : ∀ rl, resolveImports stg r (imports_of e) = .ok rl →
      ∀ p, (true, p) ∈ rl → (false, p) ∉ rl) :
    ∀ p, p ∈ a.leaf_deps → p ∉ a.deep_deps := by
  obtain ⟨rl, hres, happ⟩ := (scan_ast_spec stg r e).1 _ _ h
  subst happ
  intro p hleaf hdeep
  rw [applyImports_leaf_deps] at hleaf
  rw [applyImports_deep_deps] at hdeep
  rw [mem_foldl_addIfAbsent] at hleaf hdeep
  simp only [Analysis.default, List.not_mem_nil, false_or] at hleaf hdeep
  exact hdisj rl hres p (mem_pathsOf.mp hdeep) (mem_pathsOf.mp hleaf)

/-- Witness for the amended C1: with two distinct absolute import targets the
lists are disjoint, here instantiated at the leaf entry `pC`. -/
theorem c1_witness : pC ∉ (Analysis.mk [pC] [pP]).deep_deps :=
  c1_amended stgEmpty rPlain (.Arr [.Import pP, .ImportStr pC]) ⟨[pC], [pP]⟩ rfl
    (by
      intro rl hres p htrue hfalse
      have h0 : resolveImports stgEmpty rPlain
          (imports_of (.Arr [.Import pP, .ImportStr pC])) =
            .ok [(true, pP), (false, pC)] := rfl
      rw [h0] at hres
      injection hres with hres
      subst hres
      simp only [List.mem_cons, List.not_mem_nil, or_false, Prod.mk.injEq] at htrue hfalse
      rcases htrue with ⟨-, hp⟩ | ⟨hb, -⟩
      · rcases hfalse with ⟨hb, -⟩ | ⟨-, hq⟩
        · exact Bool.noConfusion hb
        · exact absurd (hp.symm.trans hq) (by decide)
      · exact Bool.noConfusion hb)
    pC (by decide)

/-- C10: if every readable path has a parent directory, per-file analysis can
never hit the `unwrap` panic: every failure it reports is an ordinary read,
parse, or resolution error value. -/
theorem c10_no_panic (stg : Storage) (jpaths : List FPath) (f : FPath)
    (hread : stg.readFile f ≠ none → f.comps ≠ []) :
    ∀ e, analyze_file stg jpaths f = .error e → e ≠ .panicked := by
  intro e h
  unfold analyze_file at h
  match hrf : stg.readFile f with
  | none =>
    rw [hrf] at h
    injection h with h
    rw [← h]
    simp
  | some none =>
    rw [hrf] at h
    injection h with h
    rw [← h]
    simp
  | some (some ast) =>
    rw [hrf] at h
    have hcomps : f.comps ≠ [] := hread (by simp [hrf])
    match hpar : f.parent with
    | none =>
      exfalso
      unfold FPath.parent at hpar
      rcases hceq : f.comps with - | ⟨x, xs⟩
      · exact hcomps hceq
      · rw [hceq] at hpar
        simp at hpar
    | some base_dir =>
      rw [hpar] at h
      obtain ⟨p, hp⟩ :=
        (scan_ast_spec stg ⟨base_dir, jpaths⟩ ast).2 Analysis.default e h
      subst hp
      simp

/-- Witness for C10 on a concrete failing analysis: the reported error is the
read error, not the panic marker. -/
theorem c10_witness : Err.readFailed pC ≠ Err.panicked :=
  c10_no_panic stgCycle [] pC (fun _ => by decide) (.readFailed pC) rfl

/-! ## Theorems: the Closure Engine -/

theorem mem_hsInsert {s : List FPath} {p x : FPath} :
    x ∈ hsInsert s p ↔ x = p ∨ x ∈ s := by
  by_cases hp : p ∈ s
  · simp only [hsInsert, if_pos hp]
    exact ⟨Or.inr, fun h => h.elim (fun hx => hx ▸ hp) id⟩
  · simp [hsInsert, hp]

theorem mem_foldl_hsInsert :
    ∀ (l init : List FPath) (x : FPath),
      x ∈ List.foldl hsInsert init l ↔ x ∈ init ∨ x ∈ l
  | [], init, x => by simp
  | p :: l, init, x => by
    rw [List.foldl_cons, mem_foldl_hsInsert l _ x, mem_hsInsert]
    simp only [List.mem_cons]
    tauto

theorem mem_stack_push :
    ∀ (deeps tex : List FPath) (x : FPath),
      x ∈ stack_push deeps tex ↔ x ∈ deeps ∨ x ∈ tex
  | [], tex, x => by simp [stack_push]
  | d :: deeps, tex, x => by
    rw [show stack_push (d :: deeps) tex = stack_push deeps (d :: tex) from rfl,
      mem_stack_push deeps (d :: tex) x]
    simp only [List.mem_cons]
    tauto

theorem mem_queue_push :
    ∀ (deeps tex : List FPath) (x : FPath),
      x ∈ queue_push deeps tex ↔ x ∈ deeps ∨ x ∈ tex
  | [], tex, x => by simp [queue_push]
  | d :: deeps, tex, x => by
    rw [show queue_push (d :: deeps) tex = queue_push deeps (tex ++ [d]) from rfl,
      mem_queue_push deeps (tex ++ [d]) x]
    simp only [List.mem_cons, List.mem_append, List.mem_singleton]
    tauto

theorem cacheOK_eff (stg : Storage) (jpaths : List FPath) (cache : Cache) :
    CacheOK stg jpaths (effAnalysis stg jpaths cache) cache := by
  constructor
  · intro f a h
    simp [effAnalysis, h]
  · intro f h
    simp [effAnalysis, h]

theorem cacheOK_analyze_nil (stg : Storage) (jpaths : List FPath) :
    CacheOK stg jpaths (analyze_file stg jpaths) ([] : Cache) := by
  constructor
  · intro f a h
    simp [cacheGet] at h
  · intro f _
    rfl

theorem cacheOK_insert {stg : Storage} {jpaths : List FPath}
    {A : FPath → Except Err Analysis} {cache : Cache} {f : FPath} {a : Analysis}
    (hC : CacheOK stg jpaths A cache) (hmiss : cacheGet cache f = none)
    (ha : analyze_file stg jpaths f = .ok a) :
    CacheOK stg jpaths A ((f, a) :: cache) := by
  have hAf : A f = .ok a := (hC.2 f hmiss) ▸ ha
  constructor
  · intro g b hg
    simp only [cacheGet] at hg
    by_cases hgf : f = g
    · rw [if_pos hgf] at hg
      injection hg with hg
      exact hgf ▸ (hg ▸ hAf)
    · rw [if_neg hgf] at hg
      exact hC.1 g b hg
  · intro g hg
    simp only [cacheGet] at hg
    by_cases hgf : f = g
    · rw [if_pos hgf] at hg
      exact absurd hg (by simp)
    · rw [if_neg hgf] at hg
      exact hC.2 g hg

theorem cacheExt_refl (stg : Storage) (jpaths : List FPath) (c : Cache) :
    CacheExt stg jpaths c c := fun _ => Or.inl rfl

theorem cacheExt_trans {stg : Storage} {jpaths : List FPath} {c1 c2 c3 : Cache}
    (h12 : CacheExt stg jpaths c1 c2) (h23 : CacheExt stg jpaths c2 c3) :
    CacheExt stg jpaths c1 c3 := by
  intro f
  rcases h23 f with h23f | ⟨hmiss2, b, hb, hab⟩
  · rcases h12 f with h12f | ⟨hmiss1, b, hb, hab⟩
    · exact Or.inl (h23f.trans h12f)
    · exact Or.inr ⟨hmiss1, b, h23f.trans hb, hab⟩
  · rcases h12 f with h12f | ⟨hmiss1, b', hb', _⟩
    · exact Or.inr ⟨h12f ▸ hmiss2, b, hb, hab⟩
    · rw [hb'] at hmiss2
      exact absurd hmiss2 (by simp)

theorem cacheExt_insert {stg : Storage} {jpaths : List FPath} {c : Cache}
    {f : FPath} {a : Analysis} (hmiss : cacheGet c f = none)
    (ha : analyze_file stg jpaths f = .ok a) :
    CacheExt stg jpaths c ((f, a) :: c) := by
  intro g
  by_cases hgf : f = g
  · subst hgf
    exact Or.inr ⟨hmiss, a, by simp [cacheGet], ha⟩
  · exact Or.inl (by simp [cacheGet, hgf])

theorem wl_loop_succ_cons (push : List FPath → List FPath → List FPath)
    (stg : Storage) (jpaths : List FPath) (fuel : Nat) (cache : Cache)
    (deps : List FPath) (filename : FPath) (tex : List FPath) :
    wl_loop push stg jpaths (fuel + 1) cache deps (filename :: tex) =
      if filename ∈ deps then wl_loop push stg jpaths fuel cache deps tex
      else
        match cacheGet cache filename with
        | some analysis =>
          wl_loop push stg jpaths fuel cache
            (analysis.leaf_deps.foldl hsInsert (hsInsert deps filename))
            (push analysis.deep_deps tex)
        | none =>
          match analyze_file stg jpaths filename with
          | .error e => some (.error e, cache)
          | .ok analysis =>
            wl_loop push stg jpaths fuel ((filename, analysis) :: cache)
              (analysis.leaf_deps.foldl hsInsert (hsInsert deps filename))
              (push analysis.deep_deps tex) := rfl

theorem wl_step {push : List FPath → List FPath → List FPath} {stg : Storage}
    {jpaths : List FPath} {A : FPath → Except Err Analysis} {fuel : Nat}
    {cache : Cache} {deps : List FPath} {filename : FPath} {tex : List FPath}
    {res : Option (Except Err (List FPath) × Cache)}
    (hC : CacheOK stg jpaths A cache) (hmem : filename ∉ deps)
    (h : wl_loop push stg jpaths (fuel + 1) cache deps (filename :: tex) = res) :
    (∃ e, A filename = .error e ∧ res = some (.error e, cache)) ∨
    (∃ a cache', A filename = .ok a ∧ CacheOK stg jpaths A cache' ∧
      CacheExt stg jpaths cache cache' ∧
      wl_loop push stg jpaths fuel cache'
        (a.leaf_deps.foldl hsInsert (hsInsert deps filename))
        (push a.deep_deps tex) = res) := by
  rw [wl_loop_succ_cons, if_neg hmem] at h
  match hcg : cacheGet cache filename with
  | some a =>
    rw [hcg] at h
    exact Or.inr ⟨a, cache, hC.1 filename a hcg, hC,
      cacheExt_refl stg jpaths cache, h⟩
  | none =>
    rw [hcg] at h
    have hAeq : analyze_file stg jpaths filename = A filename := hC.2 filename hcg
    match han : analyze_file stg jpaths filename with
    | .error e =>
      rw [han] at h
      exact Or.inl ⟨e, hAeq ▸ han, h.symm⟩
    | .ok a =>
      rw [han] at h
      exact Or.inr ⟨a, (filename, a) :: cache, hAeq ▸ han,
        cacheOK_insert hC hcg han, cacheExt_insert hcg han, h⟩

theorem wl_cache_extension (push : List FPath → List FPath → List FPath)
    (stg : Storage) (jpaths : List FPath) :
    ∀ (fuel : Nat) (cache : Cache) (deps tex : List FPath)
      (res : Except Err (List FPath)) (cache' : Cache),
      wl_loop push stg jpaths fuel cache deps tex = some (res, cache') →
      CacheExt stg jpaths cache cache'
  | 0, cache, deps, tex, res, cache', h => by simp [wl_loop] at h
  | fuel + 1, cache, deps, [], res, cache', h => by
    simp only [wl_loop, Option.some.injEq, Prod.mk.injEq] at h
    exact h.2 ▸ cacheExt_refl stg jpaths cache
  | fuel + 1, cache, deps, filename :: tex, res, cache', h => by
    by_cases hmem : filename ∈ deps
    · rw [wl_loop_succ_cons, if_pos hmem] at h
      exact wl_cache_extension push stg jpaths fuel cache deps tex res cache' h
    · rw [wl_loop_succ_cons, if_neg hmem] at h
      match hcg : cacheGet cache filename with
      | some a =>
        rw [hcg] at h
        exact wl_cache_extension push stg jpaths fuel cache _ _ res cache' h
      | none =>
        rw [hcg] at h
        match han : analyze_file stg jpaths filename with
        | .error e =>
          rw [han] at h
          simp only [Option.some.injEq, Prod.mk.injEq] at h
          exact h.2 ▸ cacheExt_refl stg jpaths cache
        | .ok a =>
          rw [han] at h
          exact cacheExt_trans (cacheExt_insert hcg han)
            (wl_cache_extension push stg jpaths fuel _ _ _ res cache' h)

theorem wl_error_origin (push : List FPath → List FPath → List FPath)
    (stg : Storage) (jpaths : List FPath) :
    ∀ (fuel : Nat) (cache : Cache) (deps tex : List FPath) (e : Err) (cache' : Cache),
      wl_loop push stg jpaths fuel cache deps tex = some (.error e, cache') →
      ∃ f, analyze_file stg jpaths f = .error e
  | 0, cache, deps, tex, e, cache', h => by simp [wl_loop] at h
  | fuel + 1, cache, deps, [], e, cache', h => by
    simp only [wl_loop, Option.some.injEq, Prod.mk.injEq] at h
    exact absurd h.1 (by simp)
  | fuel + 1, cache, deps, filename :: tex, e, cache', h => by
    by_cases hmem : filename ∈ deps
    · rw [wl_loop_succ_cons, if_pos hmem] at h
      exact wl_error_origin push stg jpaths fuel cache deps tex e cache' h
    · rw [wl_loop_succ_cons, if_neg hmem] at h
      match hcg : cacheGet cache filename with
      | some a =>
        rw [hcg] at h
        exact wl_error_origin push stg jpaths fuel cache _ _ e cache' h
      | none =>
        rw [hcg] at h
        match han : analyze_file stg jpaths filename with
        | .error e' =>
          rw [han] at h
          simp only [Option.some.injEq, Prod.mk.injEq, Except.error.injEq] at h
          exact ⟨filename, h.1 ▸ han⟩
        | .ok a =>
          rw [han] at h
          exact wl_error_origin push stg jpaths fuel _ _ _ e cache' h

theorem wl_cacheOK_preserved (push : List FPath → List FPath → List FPath)
    (stg : Storage) (jpaths : List FPath) (A : FPath → Except Err Analysis) :
    ∀ (fuel : Nat) (cache : Cache) (deps tex : List FPath)
      (res : Except Err (List FPath)) (cache' : Cache),
      CacheOK stg jpaths A cache →
      wl_loop push stg jpaths fuel cache deps tex = some (res, cache') →
      CacheOK stg jpaths A cache'
  | 0, cache, deps, tex, res, cache', hC, h => by simp [wl_loop] at h
  | fuel + 1, cache, deps, [], res, cache', hC, h => by
    simp only [wl_loop, Option.some.injEq, Prod.mk.injEq] at h
    exact h.2 ▸ hC
  | fuel + 1, cache, deps, filename :: tex, res, cache', hC, h => by
    by_cases hmem : filename ∈ deps
    · rw [wl_loop_succ_cons, if_pos hmem] at h
      exact wl_cacheOK_preserved push stg jpaths A fuel cache deps tex res cache' hC h
    · rw [wl_loop_succ_cons, if_neg hmem] at h
      match hcg : cacheGet cache filename with
      | some a =>
        rw [hcg] at h
        exact wl_cacheOK_preserved push stg jpaths A fuel cache _ _ res cache' hC h
      | none =>
        rw [hcg] at h
        match han : analyze_file stg jpaths filename with
        | .error e =>
          rw [han] at h
          simp only [Option.some.injEq, Prod.mk.injEq] at h
          exact h.2 ▸ hC
        | .ok a =>
          rw [han] at h
          exact wl_cacheOK_preserved push stg jpaths A fuel _ _ _ res cache'
            (cacheOK_insert hC hcg han) h

theorem wl_ok_mem (push : List FPath → List FPath → List FPath)
    (hpush : ∀ (x : FPath) (l q : List FPath), x ∈ push l q ↔ x ∈ l ∨ x ∈ q)
    (stg : Storage) (jpaths : List FPath) :
    ∀ (fuel : Nat) (cache : Cache) (deps tex : List FPath)
      (S : List FPath) (cache' : Cache),
      wl_loop push stg jpaths fuel cache deps tex = some (.ok S, cache') →
      ∀ x, x ∈ deps ∨ x ∈ tex → x ∈ S
  | 0, cache, deps, tex, S, cache', h => by simp [wl_loop] at h
  | fuel + 1, cache, deps, [], S, cache', h => by
    simp only [wl_loop, Option.some.injEq, Prod.mk.injEq, Except.ok.injEq] at h
    intro x hx
    rcases hx with hx | hx
    · exact h.1 ▸ hx
    · simp at hx
  | fuel + 1, cache, deps, filename :: tex, S, cache', h => by
    intro x hx
    by_cases hmem : filename ∈ deps
    · rw [wl_loop_succ_cons, if_pos hmem] at h
      refine wl_ok_mem push hpush stg jpaths fuel cache deps tex S cache' h x ?_
      rcases hx with hx | hx
      · exact Or.inl hx
      · rcases List.mem_cons.mp hx with hx | hx
        · exact Or.inl (hx ▸ hmem)
        · exact Or.inr hx
    · rw [wl_loop_succ_cons, if_neg hmem] at h
      have hnext : ∀ (a : Analysis) (cache1 : Cache),
          wl_loop push stg jpaths fuel cache1
            (a.leaf_deps.foldl hsInsert (hsInsert deps filename))
            (push a.deep_deps tex) = some (.ok S, cache') → x ∈ S := by
        intro a cache1 hcont
        refine wl_ok_mem push hpush stg jpaths fuel cache1 _ _ S cache' hcont x ?_
        rcases hx with hx | hx
        · exact Or.inl ((mem_foldl_hsInsert _ _ x).mpr (Or.inl (mem_hsInsert.mpr (Or.inr hx))))
        · rcases List.mem_cons.mp hx with hx | hx
          · exact Or.inl ((mem_foldl_hsInsert _ _ x).mpr (Or.inl (mem_hsInsert.mpr (Or.inl hx))))
          · exact Or.inr ((hpush x _ _).mpr (Or.inr hx))
      match hcg : cacheGet cache filename with
      | some a =>
        rw [hcg] at h
        exact hnext a cache h
      | none =>
        rw [hcg] at h
        match han : analyze_file stg jpaths filename with
        | .error e =>
          rw [han] at h
          simp at h
        | .ok a =>
          rw [han] at h
          exact hnext a ((filename, a) :: cache) h

theorem deepsOf_eq {A : FPath → Except Err Analysis} {f : FPath} {a : Analysis}
    (h : A f = .ok a) : deepsOf A f = a.deep_deps := by
  simp [deepsOf, h]

theorem leafsOf_eq {A : FPath → Except Err Analysis} {f : FPath} {a : Analysis}
    (h : A f = .ok a) : leafsOf A f = a.leaf_deps := by
  simp [leafsOf, h]

theorem wl_final_closed (push : List FPath → List FPath → List FPath)
    (hpush : ∀ (x : FPath) (l q : List FPath), x ∈ push l q ↔ x ∈ l ∨ x ∈ q)
    (stg : Storage) (jpaths : List FPath) (A : FPath → Except Err Analysis)
    (U : List FPath)
    (hUc : ∀ f ∈ U, ∀ d ∈ deepsOf A f, d ∈ U)
    (hDisj : LeafDisjoint A U) :
    ∀ (fuel : Nat) (cache : Cache) (deps tex : List FPath)
      (S : List FPath) (cache' : Cache),
      CacheOK stg jpaths A cache →
      (∀ x ∈ tex, x ∈ U) →
      (∀ f, f ∈ U → f ∈ deps →
        (∀ l ∈ leafsOf A f, l ∈ deps) ∧ (∀ d ∈ deepsOf A f, d ∈ deps ∨ d ∈ tex)) →
      wl_loop push stg jpaths fuel cache deps tex = some (.ok S, cache') →
      ∀ f, f ∈ U → f ∈ S →
        (∀ l ∈ leafsOf A f, l ∈ S) ∧ (∀ d ∈ deepsOf A f, d ∈ S)
  | 0, cache, deps, tex, S, cache', _, _, _, h => by simp [wl_loop] at h
  | fuel + 1, cache, deps, [], S, cache', _, _, hJ, h => by
    simp only [wl_loop, Option.some.injEq, Prod.mk.injEq, Except.ok.injEq] at h
    intro f hfU hfS
    obtain ⟨hleafs, hdeeps⟩ := hJ f hfU (h.1 ▸ hfS)
    refine ⟨fun l hl => h.1 ▸ hleafs l hl, fun d hd => ?_⟩
    rcases hdeeps d hd with hdd | hdd
    · exact h.1 ▸ hdd
    · simp at hdd
  | fuel + 1, cache, deps, filename :: tex, S, cache', hC, hTex, hJ, h => by
    by_cases hmem : filename ∈ deps
    · rw [wl_loop_succ_cons, if_pos hmem] at h
      refine wl_final_closed push hpush stg jpaths A U hUc hDisj fuel cache deps tex
        S cache' hC (fun x hx => hTex x (List.mem_cons_of_mem filename hx)) ?_ h
      intro f hfU hfd
      obtain ⟨hleafs, hdeeps⟩ := hJ f hfU hfd
      refine ⟨hleafs, fun d hd => ?_⟩
      rcases hdeeps d hd with hdd | hdd
      · exact Or.inl hdd
      · rcases List.mem_cons.mp hdd with hdd | hdd
        · exact Or.inl (hdd ▸ hmem)
        · exact Or.inr hdd
    · have hfnU : filename ∈ U := hTex filename (by simp)
      rcases wl_step hC hmem h with ⟨e, _, hres⟩ | ⟨a, cache1, hAa, hC1, _, hcont⟩
      · simp at hres
      · have hdeq : deepsOf A filename = a.deep_deps := deepsOf_eq hAa
        have hleq : leafsOf A filename = a.leaf_deps := leafsOf_eq hAa
        refine wl_final_closed push hpush stg jpaths A U hUc hDisj fuel cache1 _ _
          S cache' hC1 ?_ ?_ hcont
        · intro x hx
          rcases (hpush x _ _).mp hx with hx | hx
          · exact hUc filename hfnU x (hdeq ▸ hx)
          · exact hTex x (List.mem_cons_of_mem filename hx)
        · intro g hgU hgd
          rcases (mem_foldl_hsInsert _ _ g).mp hgd with hgd | hgd
          · rcases mem_hsInsert.mp hgd with hgf | hgd
            · subst hgf
              constructor
              · intro l hl
                exact (mem_foldl_hsInsert _ _ l).mpr (Or.inr (hleq ▸ hl))
              · intro d hd
                exact Or.inr ((hpush d _ _).mpr (Or.inl (hdeq ▸ hd)))
            · obtain ⟨hleafs, hdeeps⟩ := hJ g hgU hgd
              constructor
              · intro l hl
                exact (mem_foldl_hsInsert _ _ l).mpr
                  (Or.inl (mem_hsInsert.mpr (Or.inr (hleafs l hl))))
              · intro d hd
                rcases hdeeps d hd with hdd | hdd
                · exact Or.inl ((mem_foldl_hsInsert _ _ d).mpr
                    (Or.inl (mem_hsInsert.mpr (Or.inr hdd))))
                · rcases List.mem_cons.mp hdd with hdd | hdd
                  · exact Or.inl ((mem_foldl_hsInsert _ _ d).mpr
                      (Or.inl (mem_hsInsert.mpr (Or.inl hdd))))
                  · exact Or.inr ((hpush d _ _).mpr (Or.inr hdd))
          · exact absurd hgU (hDisj filename hfnU g (hleq ▸ hgd))

theorem wl_sound (push : List FPath → List FPath → List FPath)
    (hpush : ∀ (x : FPath) (l q : List FPath), x ∈ push l q ↔ x ∈ l ∨ x ∈ q)
    (stg : Storage) (jpaths : List FPath) (A : FPath → Except Err Analysis) :
    ∀ (fuel : Nat) (cache : Cache) (deps tex : List FPath)
      (S : List FPath) (cache' : Cache),
      CacheOK stg jpaths A cache →
      wl_loop push stg jpaths fuel cache deps tex = some (.ok S, cache') →
      ∀ p, p ∈ S → p ∈ deps ∨ ∃ x, x ∈ tex ∧ ClosureSet A x p
  | 0, cache, deps, tex, S, cache', _, h => by simp [wl_loop] at h
  | fuel + 1, cache, deps, [], S, cache', _, h => by
    simp only [wl_loop, Option.some.injEq, Prod.mk.injEq, Except.ok.injEq] at h
    exact fun p hp => Or.inl (h.1 ▸ hp)
  | fuel + 1, cache, deps, filename :: tex, S, cache', hC, h => by
    by_cases hmem : filename ∈ deps
    · rw [wl_loop_succ_cons, if_pos hmem] at h
      intro p hp
      rcases wl_sound push hpush stg jpaths A fuel cache deps tex S cache' hC h p hp with
        hd | ⟨x, hx, hcl⟩
      · exact Or.inl hd
      · exact Or.inr ⟨x, List.mem_cons_of_mem filename hx, hcl⟩
    · rcases wl_step hC hmem h with ⟨e, _, hres⟩ | ⟨a, cache1, hAa, hC1, _, hcont⟩
      · simp at hres
      · intro p hp
        rcases wl_sound push hpush stg jpaths A fuel cache1 _ _ S cache' hC1 hcont p hp with
          hd | ⟨x, hx, hcl⟩
        · rcases (mem_foldl_hsInsert _ _ p).mp hd with hd | hd
          · rcases mem_hsInsert.mp hd with hpf | hd
            · exact Or.inr ⟨filename, by simp,
                filename, Relation.ReflTransGen.refl, Or.inl hpf⟩
            · exact Or.inl hd
          · exact Or.inr ⟨filename, by simp,
              filename, Relation.ReflTransGen.refl, Or.inr (leafsOf_eq hAa ▸ hd)⟩
        · rcases (hpush x _ _).mp hx with hx | hx
          · obtain ⟨g, hreach, hg⟩ := hcl
            exact Or.inr ⟨filename, by simp,
              g, Relation.ReflTransGen.head (deepsOf_eq hAa ▸ hx) hreach, hg⟩
          · exact Or.inr ⟨x, List.mem_cons_of_mem filename hx, hcl⟩

theorem wl_run_char (push : List FPath → List FPath → List FPath)
    (hpush : ∀ (x : FPath) (l q : List FPath), x ∈ push l q ↔ x ∈ l ∨ x ∈ q)
    (stg : Storage) (jpaths : List FPath) (A : FPath → Except Err Analysis)
    (root : FPath) (U : List FPath)
    (hU : GoodUniverse A root U) (hDisj : LeafDisjoint A U)
    (cache : Cache) (hC : CacheOK stg jpaths A cache) (fuel : Nat)
    (S : List FPath) (cache' : Cache)
    (h : wl_loop push stg jpaths fuel cache [] [root] = some (.ok S, cache')) :
    ∀ p, p ∈ S ↔ ClosureSet A root p := by
  obtain ⟨hroot, hUc⟩ := hU
  have hclosed := wl_final_closed push hpush stg jpaths A U hUc hDisj fuel cache [] [root]
    S cache' hC
    (by intro x hx; rw [List.mem_singleton] at hx; exact hx ▸ hroot)
    (by intro f _ hfd; simp at hfd) h
  have hmem := wl_ok_mem push hpush stg jpaths fuel cache [] [root] S cache' h
  have hreach : ∀ g, Reaches A root g → g ∈ U ∧ g ∈ S := by
    intro g hg
    induction hg with
    | refl => exact ⟨hroot, hmem root (Or.inr (by simp))⟩
    | tail hxm hedge ih =>
      obtain ⟨hmU, hmS⟩ := ih
      exact ⟨hUc _ hmU _ hedge, (hclosed _ hmU hmS).2 _ hedge⟩
  intro p
  constructor
  · intro hp
    rcases wl_sound push hpush stg jpaths A fuel cache [] [root] S cache' hC h p hp with
      hfalse | ⟨x, hx, hcl⟩
    · simp at hfalse
    · rw [List.mem_singleton] at hx
      exact hx ▸ hcl
  · rintro ⟨g, hreachg, hpg⟩
    obtain ⟨hgU, hgS⟩ := hreach g hreachg
    rcases hpg with rfl | hleaf
    · exact hgS
    · exact (hclosed g hgU hgS).1 p hleaf

theorem absentCount_le {d1 d2 : List FPath} (hsub : ∀ x ∈ d1, x ∈ d2) :
    ∀ U : List FPath, absentCount d2 U ≤ absentCount d1 U
  | [] => le_refl _
  | u :: U => by
    simp only [absentCount, List.countP_cons]
    have ht : absentCount d2 U ≤ absentCount d1 U := absentCount_le hsub U
    simp only [absentCount] at ht
    by_cases hu2 : u ∈ d2
    · have hu2' : ¬u ∉ d2 := fun hc => hc hu2
      simp only [hu2', decide_False, Bool.false_eq_true, if_false]
      omega
    · have hu1 : u ∉ d1 := fun hc => hu2 (hsub u hc)
      simp only [hu2, hu1, not_false_iff, decide_True, if_true]
      omega

theorem absentCount_lt {d1 d2 : List FPath} {f : FPath} (hsub : ∀ x ∈ d1, x ∈ d2)
    (hf1 : f ∉ d1) (hf2 : f ∈ d2) :
    ∀ U : List FPath, f ∈ U → absentCount d2 U < absentCount d1 U
  | u :: U, hfU => by
    simp only [absentCount, List.countP_cons]
    by_cases huf : u = f
    · subst huf
      have h2 : ¬u ∉ d2 := fun hc => hc hf2
      have ht : absentCount d2 U ≤ absentCount d1 U := absentCount_le hsub U
      simp only [absentCount] at ht
      simp only [h2, decide_False, Bool.false_eq_true, if_false, hf1, not_false_iff,
        decide_True, if_true]
      omega
    · have hfU' : f ∈ U := by
        rcases List.mem_cons.mp hfU with hc | hc
        · exact absurd hc.symm huf
        · exact hc
      have ht := absentCount_lt hsub hf1 hf2 U hfU'
      simp only [absentCount] at ht
      by_cases hu2 : u ∈ d2
      · have hu2' : ¬u ∉ d2 := fun hc => hc hu2
        simp only [hu2', decide_False, Bool.false_eq_true, if_false]
        omega
      · have hu1 : u ∉ d1 := fun hc => hu2 (hsub u hc)
        simp only [hu2, hu1, not_false_iff, decide_True, if_true]
        omega

theorem absentCount_pos {deps U : List FPath} {f : FPath} (hfU : f ∈ U)
    (hf : f ∉ deps) : 1 ≤ absentCount deps U := by
  have h : 0 < U.countP (fun u => decide (u ∉ deps)) :=
    List.countP_pos_iff.mpr ⟨f, hfU, by simpa using hf⟩
  simpa [absentCount] using h

theorem absentCount_le_length (deps U : List FPath) :
    absentCount deps U ≤ U.length :=
  List.countP_le_length _

theorem wl_terminates (push : List FPath → List FPath → List FPath)
    (hpush : ∀ (x : FPath) (l q : List FPath), x ∈ push l q ↔ x ∈ l ∨ x ∈ q)
    (stg : Storage) (jpaths : List FPath) (A : FPath → Except Err Analysis)
    (U : List FPath)
    (hUc : ∀ f ∈ U, ∀ d ∈ deepsOf A f, d ∈ U) :
    ∀ (k n : Nat) (cache : Cache) (deps tex : List FPath),
      CacheOK stg jpaths A cache →
      (∀ x ∈ tex, x ∈ U) →
      absentCount deps U ≤ k →
      tex.length ≤ n →
      ∃ fuel r, wl_loop push stg jpaths fuel cache deps tex = some r
  | k, n, cache, deps, [], _, _, _, _ => ⟨1, (.ok deps, cache), rfl⟩
  | k, n, cache, deps, f :: tex, hC, hTex, hk, hn => by
    match n, hn with
    | 0, hn => simp at hn
    | n + 1, hn =>
      by_cases hmem : f ∈ deps
      · obtain ⟨fuel, r, hr⟩ := wl_terminates push hpush stg jpaths A U hUc k n cache
          deps tex hC (fun x hx => hTex x (List.mem_cons_of_mem f hx)) hk
          (by simpa using hn)
        exact ⟨fuel + 1, r, by rw [wl_loop_succ_cons, if_pos hmem]; exact hr⟩
      · have hfU : f ∈ U := hTex f (by simp)
        have hpos := absentCount_pos hfU hmem
        match k, hk with
        | 0, hk => exact absurd hk (by omega)
        | k + 1, hk =>
          have hstep : ∀ (a : Analysis) (cache1 : Cache), A f = .ok a →
              CacheOK stg jpaths A cache1 →
              ∃ fuel r, wl_loop push stg jpaths fuel cache1
                (a.leaf_deps.foldl hsInsert (hsInsert deps f))
                (push a.deep_deps tex) = some r := by
            intro a cache1 hAa hC1
            have hsub : ∀ x ∈ deps,
                x ∈ a.leaf_deps.foldl hsInsert (hsInsert deps f) := fun x hx =>
              (mem_foldl_hsInsert _ _ x).mpr (Or.inl (mem_hsInsert.mpr (Or.inr hx)))
            have hfin : f ∈ a.leaf_deps.foldl hsInsert (hsInsert deps f) :=
              (mem_foldl_hsInsert _ _ f).mpr (Or.inl (mem_hsInsert.mpr (Or.inl rfl)))
            have habs : absentCount (a.leaf_deps.foldl hsInsert (hsInsert deps f)) U ≤ k := by
              have := absentCount_lt hsub hmem hfin U hfU
              omega
            have hTex1 : ∀ x ∈ push a.deep_deps tex, x ∈ U := by
              intro x hx
              rcases (hpush x _ _).mp hx with hd | ht
              · exact hUc f hfU x (deepsOf_eq hAa ▸ hd)
              · exact hTex x (List.mem_cons_of_mem f ht)
            exact wl_terminates push hpush stg jpaths A U hUc k
              (push a.deep_deps tex).length cache1 _ _ hC1 hTex1 habs (le_refl _)
          cases hcg : cacheGet cache f with
          | some a =>
            obtain ⟨fuel, r, hr⟩ := hstep a cache (hC.1 f a hcg) hC
            exact ⟨fuel + 1, r, by rw [wl_loop_succ_cons, if_neg hmem, hcg]; exact hr⟩
          | none =>
            cases han : analyze_file stg jpaths f with
            | error e =>
              exact ⟨1, (.error e, cache), by
                rw [wl_loop_succ_cons, if_neg hmem, hcg, han]⟩
            | ok a =>
              obtain ⟨fuel, r, hr⟩ := hstep a ((f, a) :: cache) ((hC.2 f hcg) ▸ han)
                (cacheOK_insert hC hcg han)
              exact ⟨fuel + 1, r, by
                rw [wl_loop_succ_cons, if_neg hmem, hcg, han]; exact hr⟩
termination_by k n cache deps tex _ _ _ _ => (k, n)

theorem wl_lockstep (push : List FPath → List FPath → List FPath)
    (stg : Storage) (jpaths : List FPath) (A : FPath → Except Err Analysis) :
    ∀ (fuel : Nat) (c1 c2 : Cache) (deps tex : List FPath),
      CacheOK stg jpaths A c1 → CacheOK stg jpaths A c2 →
      (wl_loop push stg jpaths fuel c1 deps tex).map Prod.fst =
        (wl_loop push stg jpaths fuel c2 deps tex).map Prod.fst
  | 0, c1, c2, deps, tex, _, _ => rfl
  | fuel + 1, c1, c2, deps, [], _, _ => rfl
  | fuel + 1, c1, c2, deps, f :: tex, h1, h2 => by
    by_cases hmem : f ∈ deps
    · rw [wl_loop_succ_cons, wl_loop_succ_cons, if_pos hmem, if_pos hmem]
      exact wl_lockstep push stg jpaths A fuel c1 c2 deps tex h1 h2
    · rw [wl_loop_succ_cons, wl_loop_succ_cons, if_neg hmem, if_neg hmem]
      match hAf : A f with
      | .error e =>
        have hm1 : cacheGet c1 f = none := by
          cases hcg : cacheGet c1 f with
          | none => rfl
          | some a => exact absurd (h1.1 f a hcg) (by simp [hAf])
        have hm2 : cacheGet c2 f = none := by
          cases hcg : cacheGet c2 f with
          | none => rfl
          | some a => exact absurd (h2.1 f a hcg) (by simp [hAf])
        have han1 : analyze_file stg jpaths f = .error e := (h1.2 f hm1).trans hAf
        have han2 : analyze_file stg jpaths f = .error e := (h2.2 f hm2).trans hAf
        simp only [hm1, hm2, han1, han2, Option.map_some']
      | .ok a =>
        have hcont : ∀ (c1' c2' : Cache),
            CacheOK stg jpaths A c1' → CacheOK stg jpaths A c2' →
            (wl_loop push stg jpaths fuel c1'
                (a.leaf_deps.foldl hsInsert (hsInsert deps f))
                (push a.deep_deps tex)).map Prod.fst =
              (wl_loop push stg jpaths fuel c2'
                (a.leaf_deps.foldl hsInsert (hsInsert deps f))
                (push a.deep_deps tex)).map Prod.fst :=
          fun c1' c2' h1' h2' =>
            wl_lockstep push stg jpaths A fuel c1' c2' _ _ h1' h2'
        cases hcg1 : cacheGet c1 f with
        | some b =>
          have hb : b = a := by
            have := (h1.1 f b hcg1).symm.trans hAf
            injection this
          subst hb
          cases hcg2 : cacheGet c2 f with
          | some b' =>
            have hb' : b' = b := by
              have := (h2.1 f b' hcg2).symm.trans hAf
              injection this
            subst hb'
            exact hcont c1 c2 h1 h2
          | none =>
            have han2 : analyze_file stg jpaths f = .ok b := (h2.2 f hcg2).trans hAf
            simp only [han2]
            exact hcont c1 ((f, b) :: c2) h1 (cacheOK_insert h2 hcg2 han2)
        | none =>
          have han1 : analyze_file stg jpaths f = .ok a := (h1.2 f hcg1).trans hAf
          simp only [han1]
          cases hcg2 : cacheGet c2 f with
          | some b' =>
            have hb' : b' = a := by
              have := (h2.1 f b' hcg2).symm.trans hAf
              injection this
            subst hb'
            exact hcont ((f, b') :: c1) c2 (cacheOK_insert h1 hcg1 han1) h2
          | none =>
            have han2 : analyze_file stg jpaths f = .ok a := (h2.2 f hcg2).trans hAf
            simp only [han2]
            exact hcont ((f, a) :: c1) ((f, a) :: c2)
              (cacheOK_insert h1 hcg1 han1) (cacheOK_insert h2 hcg2 han2)

/-- C2 counterexample: in the `stgOrder` graph, `B` is a deep dep of `R` but
also a leaf dep of `A`.  The stack run expands `B` (reaching `C`) before `A`
inserts it as a leaf; the queue run inserts `B` as a leaf of `A` first, so the
later pop of `B` is discarded un-expanded and `C` is missing.  The two runs
therefore return different final sets: traversal order is observable. -/
theorem c2_counterexample :
    ∃ S1 c1 S2 c2,
      resolve_deps 10 stgOrder [] [] pR = some (.ok S1, c1) ∧
      resolve_deps_fifo 10 stgOrder [] [] pR = some (.ok S2, c2) ∧
      pC ∈ S1 ∧ pC ∉ S2 := by
  refine ⟨[pA, pC, pB, pR], _, [pB, pA, pR], _, rfl, rfl, ?_, ?_⟩ <;> decide

/-- C2 (amended): traversal order (LIFO stack vs FIFO queue) does not affect
the final dependency set, provided no file of the root's finite
deep-dependency universe also occurs as a leaf dependency of a file of that
universe.  (The proviso is necessary: see the counterexample, where a path is
classified leaf by one file and deep by another.) -/
theorem c2_amended (stg : Storage) (jpaths : List FPath) (cache : Cache)
    (root : FPath) (U : List FPath)
    (hU : GoodUniverse (effAnalysis stg jpaths cache) root U)
    (hDisj : LeafDisjoint (effAnalysis stg jpaths cache) U)
    {fuel1 fuel2 : Nat} {S1 S2 : List FPath} {c1 c2 : Cache}
    (h1 : resolve_deps fuel1 stg jpaths cache root = some (.ok S1, c1))
    (h2 : resolve_deps_fifo fuel2 stg jpaths cache root = some (.ok S2, c2)) :
    ∀ p, p ∈ S1 ↔ p ∈ S2 := by
  have hchar1 := wl_run_char stack_push (fun x l q => mem_stack_push l q x)
    stg jpaths (effAnalysis stg jpaths cache) root U hU hDisj cache
    (cacheOK_eff stg jpaths cache) fuel1 S1 c1 h1
  have hchar2 := wl_run_char queue_push (fun x l q => mem_queue_push l q x)
    stg jpaths (effAnalysis stg jpaths cache) root U hU hDisj cache
    (cacheOK_eff stg jpaths cache) fuel2 S2 c2 h2
  intro p
  rw [hchar1 p, hchar2 p]

/-- Witness for the amended C2: on the leaf/deep-consistent `stgShared` graph
the stack run and the queue run agree. -/
theorem c2_witness : pS ∈ ([pS, pA] : List FPath) ↔ pS ∈ ([pS, pA] : List FPath) :=
  c2_amended stgShared [] [] pA [pA, pS]
    (by unfold GoodUniverse; decide) (by unfold LeafDisjoint; decide)
    (show resolve_deps 10 stgShared [] [] pA =
      some (.ok [pS, pA], [(pS, ⟨[], []⟩), (pA, ⟨[], [pS]⟩)]) from rfl)
    (show resolve_deps_fifo 10 stgShared [] [] pA =
      some (.ok [pS, pA], [(pS, ⟨[], []⟩), (pA, ⟨[], [pS]⟩)]) from rfl)
    pS

/-- C6: the work-list loop terminates on every finite deep-dependency graph
(any universe containing the root and closed under deep deps bounds the fuel
needed), and on the concrete cycle `A → B → A` it returns exactly
`{A, B, la, lb}` — the two files plus their leaf deps. -/
theorem c6_termination :
    (∀ (stg : Storage) (jpaths : List FPath) (cache : Cache) (root : FPath)
        (U : List FPath),
      GoodUniverse (effAnalysis stg jpaths cache) root U →
      ∃ fuel r, resolve_deps fuel stg jpaths cache root = some r) ∧
    (∃ S c, resolve_deps 10 stgCycle [] [] pA = some (.ok S, c) ∧
      S.toFinset = {pA, pB, pLa, pLb}) := by
  constructor
  · rintro stg jpaths cache root U ⟨hroot, hUc⟩
    exact wl_terminates stack_push (fun x l q => mem_stack_push l q x) stg jpaths
      (effAnalysis stg jpaths cache) U hUc U.length 1 cache [] [root]
      (cacheOK_eff stg jpaths cache)
      (by intro x hx; rw [List.mem_singleton] at hx; exact hx ▸ hroot)
      (absentCount_le_length [] U) (by simp)
  · exact ⟨[pLb, pB, pLa, pA], [(pB, ⟨[pLb], [pA]⟩), (pA, ⟨[pLa], [pB]⟩)], rfl,
      by decide⟩

/-- Witness for C6's universal part, on the concrete cyclic graph. -/
theorem c6_witness : ∃ fuel r, resolve_deps fuel stgCycle [] [] pA = some r :=
  c6_termination.1 stgCycle [] [] pA [pA, pB] (by unfold GoodUniverse; decide)

/-- C7: the end-to-end scenario.  `a.cfg` module-imports `b.cfg` and
text-imports `data.txt`; `b.cfg` text-imports `shared.txt`; resolving `a.cfg`
with no search roots returns exactly
`{a.cfg, b.cfg, data.txt, shared.txt}`. -/
theorem c7_end_to_end :
    ∃ S c, resolve_deps 10 stgScenario [] [] aCfg = some (.ok S, c) ∧
      S.toFinset = {aCfg, bCfg, dataTxt, sharedTxt} :=
  ⟨[sharedTxt, bCfg, dataTxt, aCfg],
    [(bCfg, ⟨[sharedTxt], []⟩), (aCfg, ⟨[dataTxt], [bCfg]⟩)], rfl, by decide⟩

/-- C8: a failed expansion aborts the query with the originating per-file
analysis error (the error result carries no dependency set at all), and a
file whose analysis fails never gains a cache entry: its lookup result is
unchanged from before the query. -/
theorem c8_fail_fast (stg : Storage) (jpaths : List FPath) (fuel : Nat)
    (cache : Cache) (root : FPath) (e : Err) (cache' : Cache)
    (h : resolve_deps fuel stg jpaths cache root = some (.error e, cache')) :
    (∃ f, analyze_file stg jpaths f = .error e) ∧
    (∀ f e', analyze_file stg jpaths f = .error e' →
      cacheGet cache' f = cacheGet cache f) := by
  constructor
  · exact wl_error_origin stack_push stg jpaths fuel cache [] [root] e cache' h
  · intro f e' hf
    rcases wl_cache_extension stack_push stg jpaths fuel cache [] [root] _ cache' h f with
      heq | ⟨_, b, _, hok⟩
    · exact heq
    · rw [hf] at hok
      exact absurd hok (by simp)

/-- Witness for C8: expanding `A`, whose deep dep `M` is unreadable, aborts
with the read error for `M`; `M` gets no cache entry (while `A`, analyzed
successfully before the abort, keeps its entry, as in the Rust `&mut` cache). -/
theorem c8_witness :
    (∃ f, analyze_file stgFail [] f = .error (.readFailed pM)) ∧
    cacheGet [(pA, ⟨[pLa], [pM]⟩)] pM = cacheGet [] pM :=
  ⟨(c8_fail_fast stgFail [] 10 [] pA (.readFailed pM)
      [(pA, ⟨[pLa], [pM]⟩)] rfl).1,
    (c8_fail_fast stgFail [] 10 [] pA (.readFailed pM)
      [(pA, ⟨[pLa], [pM]⟩)] rfl).2 pM (.readFailed pM) rfl⟩

/-- C9: starting from an empty cache, resolving `root1` populates a cache
whose reuse for any second root changes nothing observable: the second
query's result (success set or error, at every fuel) is identical with the
populated cache and with a fresh empty cache. -/
theorem c9_cache_reuse (stg : Storage) (jpaths : List FPath) (root1 root2 : FPath)
    (fuel1 : Nat) (r1 : Except Err (List FPath)) (cache1 : Cache)
    (h1 : resolve_deps fuel1 stg jpaths [] root1 = some (r1, cache1)) :
    ∀ fuel2 : Nat,
      (resolve_deps fuel2 stg jpaths cache1 root2).map Prod.fst =
        (resolve_deps fuel2 stg jpaths [] root2).map Prod.fst := by
  intro fuel2
  have hC0 := cacheOK_analyze_nil stg jpaths
  have hC1 := wl_cacheOK_preserved stack_push stg jpaths (analyze_file stg jpaths)
    fuel1 [] [] [root1] r1 cache1 hC0 h1
  exact wl_lockstep stack_push stg jpaths (analyze_file stg jpaths) fuel2
    cache1 [] [] [root2] hC1 hC0

/-- Witness for C9: the cache populated by resolving `A` is reused for `B`
with an identical observable result. -/
theorem c9_witness :
    (resolve_deps 10 stgShared [] [(pS, ⟨[], []⟩), (pA, ⟨[], [pS]⟩)] pB).map
        Prod.fst =
      (resolve_deps 10 stgShared [] [] pB).map Prod.fst :=
  c9_cache_reuse stgShared [] pA pB 10 (.ok [pS, pA])
    [(pS, ⟨[], []⟩), (pA, ⟨[], [pS]⟩)] rfl 10
